import Mathlib

/-!
Verification of the Landstalker asset codec suite (`landstalker_tools_python`).

The Python sources are shallowly embedded: bit streams become `List Bool`
(MSB-first within each byte, matching the `bitstring` library the code uses),
byte buffers become `List Nat`, fallible operations return `Option` or
`Except String`, and `while` loops whose progress is data-dependent take an
explicit fuel argument sized so that it can never run out on the loops the
source actually performs.
-/

namespace LandTool

/-- Big-endian (MSB-first) fixed-width bit representation of `v`, width `n`,
as written by `bitstring`'s `Bits(uint=v, length=n)`. -/
def uBits : Nat → Nat → List Bool
  | 0, _ => []
  | n + 1, v => v.testBit n :: uBits n v

/-- MSB-first read of an `n`-bit unsigned integer from a bit stream,
as performed by `bitstring`'s `read('uint:n')`; `none` on exhaustion. -/
def readU : Nat → List Bool → Option (Nat × List Bool)
  | 0, s => some (0, s)
  | _ + 1, [] => none
  | n + 1, b :: s => (readU n s).map (fun p => ((cond b (2 ^ n) 0) + p.1, p.2))

/-- Splits a bit stream into its maximal prefix of `0` bits and the rest. -/
def splitZeros : List Bool → Nat × List Bool
  | [] => (0, [])
  | true :: s => (0, true :: s)
  | false :: s => ((splitZeros s).1 + 1, (splitZeros s).2)

/-- Reads an exponential-Golomb (`ue`) value: `z` leading zeros, then the
`z+1`-bit binary of `k+1` (starting with its leading 1 bit); value is `k`.
Matches `bitstring`'s `read('ue')`; `none` on exhaustion. -/
def readUe (s : List Bool) : Option (Nat × List Bool) :=
  match readU ((splitZeros s).1 + 1) (splitZeros s).2 with
  | none => none
  | some q => some (q.1 - 1, q.2)

/-- Bit length computed with an explicit fuel so that the kernel can reduce
it; `bitLenGo fuel m = m.size` whenever `m ≤ fuel`. -/
def bitLenGo : Nat → Nat → Nat
  | 0, _ => 0
  | fuel + 1, m => if m = 0 then 0 else bitLenGo fuel (m / 2) + 1

/-- The bit length of `m` (0 for 0). -/
def bitLen (m : Nat) : Nat := bitLenGo m m

/-- The exponential-Golomb code of `k`, as written by `Bits(ue=k)`:
`bitLen(k+1) - 1` zero bits followed by `k+1` in binary. -/
def ueBits (k : Nat) : List Bool :=
  List.replicate (bitLen (k + 1) - 1) false ++ uBits (bitLen (k + 1)) (k + 1)

/-- Value of a bit list read MSB-first as one byte. -/
def byteOfBits (bs : List Bool) : Nat :=
  bs.foldl (fun a b => 2 * a + cond b 1 0) 0

/-- Packs a bit stream into bytes, padding the final partial byte with zero
bits, as `bytes(stream)` does on a `bitstring` stream. -/
def bytesOfBits : List Bool → List Nat
  | [] => []
  | b1 :: b2 :: b3 :: b4 :: b5 :: b6 :: b7 :: b8 :: rest =>
    byteOfBits [b1, b2, b3, b4, b5, b6, b7, b8] :: bytesOfBits rest
  | short => [byteOfBits (short ++ List.replicate (8 - short.length) false)]

/-- The bit stream backing a byte buffer (MSB-first per byte), as obtained by
constructing a `BitStream` from bytes. -/
def bitsOfBytes (l : List Nat) : List Bool :=
  l.flatMap (uBits 8)

/-- Equality of `Except` results is decidable when both components are. -/
instance instDecEqExcept {e a : Type} [DecidableEq e] [DecidableEq a] :
    DecidableEq (Except e a) := fun x y =>
  match x, y with
  | .ok u, .ok v =>
    if h : u = v then isTrue (by rw [h]) else isFalse (by intro hc; cases hc; exact h rfl)
  | .error u, .error v =>
    if h : u = v then isTrue (by rw [h]) else isFalse (by intro hc; cases hc; exact h rfl)
  | .ok _, .error _ => isFalse (by intro hc; cases hc)
  | .error _, .ok _ => isFalse (by intro hc; cases hc)

/-- Python list indexing: non-negative indices from the front, negative
indices within `-len .. -1` wrap to the back, everything else errors. -/
def pyGet {α : Type} (l : List α) (i : Int) : Option α :=
  if 0 ≤ i then l.get? i.toNat
  else if 0 ≤ i + l.length then l.get? (i + l.length).toNat else none

theorem uBits_length (n v : Nat) : (uBits n v).length = n := by
  induction n generalizing v with
  | zero => rfl
  | succ n ih => simp [uBits, ih]

theorem readU_append_uBits (n v : Nat) (r : List Bool) :
    readU n (uBits n v ++ r) = some (v % 2 ^ n, r) := by
  induction n generalizing v with
  | zero => simp [uBits, readU, Nat.mod_one]
  | succ n ih =>
    show (readU n (uBits n v ++ r)).map
      (fun p => ((cond (v.testBit n) (2 ^ n) 0) + p.1, p.2)) = some (v % 2 ^ (n + 1), r)
    rw [ih, Nat.testBit_to_div_mod]
    rw [show v % 2 ^ (n + 1) = v % 2 ^ n + 2 ^ n * (v / 2 ^ n % 2) from Nat.mod_pow_succ]
    rcases Nat.mod_two_eq_zero_or_one (v / 2 ^ n) with h | h <;> rw [h] <;>
      simp [Nat.add_comm]

theorem readU_exact (n v : Nat) (r : List Bool) (h : v < 2 ^ n) :
    readU n (uBits n v ++ r) = some (v, r) := by
  rw [readU_append_uBits, Nat.mod_eq_of_lt h]

theorem splitZeros_append (z : Nat) (s : List Bool) :
    splitZeros (List.replicate z false ++ true :: s) = (z, true :: s) := by
  induction z with
  | zero => simp [splitZeros]
  | succ z ih => simp [List.replicate_succ, splitZeros, ih]

theorem bitLenGo_lt (fuel m : Nat) (h : m ≤ fuel) : m < 2 ^ bitLenGo fuel m := by
  induction fuel generalizing m with
  | zero =>
    have : m = 0 := by omega
    simp [this, bitLenGo]
  | succ fuel ih =>
    by_cases hm : m = 0
    · simp [hm, bitLenGo]
    · have hdiv : m / 2 ≤ fuel := by omega
      have := ih (m / 2) hdiv
      simp only [bitLenGo, hm, if_false]
      rw [Nat.pow_succ]
      omega

theorem lt_pow_bitLen (m : Nat) : m < 2 ^ bitLen m := bitLenGo_lt m m (Nat.le_refl m)

theorem bitLenGo_pos (fuel m : Nat) (hm : 0 < m) (h : m ≤ fuel) :
    0 < bitLenGo fuel m := by
  cases fuel with
  | zero => omega
  | succ fuel =>
    have : m ≠ 0 := by omega
    simp [bitLenGo, this]

theorem pow_bitLen_le (fuel m : Nat) (hm : 0 < m) (h : m ≤ fuel) :
    2 ^ (bitLenGo fuel m - 1) ≤ m := by
  induction fuel generalizing m with
  | zero => omega
  | succ fuel ih =>
    have hm0 : m ≠ 0 := by omega
    simp only [bitLenGo, hm0, if_false, Nat.add_sub_cancel]
    by_cases hd : m / 2 = 0
    · have : m = 1 := by omega
      simp [this, hd, bitLenGo]
      cases fuel <;> simp [bitLenGo]
    · have hdp : 0 < m / 2 := by omega
      have hdf : m / 2 ≤ fuel := by omega
      have h1 := ih (m / 2) hdp hdf
      have hpos := bitLenGo_pos fuel (m / 2) hdp hdf
      obtain ⟨L, hL⟩ : ∃ L, bitLenGo fuel (m / 2) = L + 1 :=
        ⟨bitLenGo fuel (m / 2) - 1, by omega⟩
      rw [hL]
      rw [hL, Nat.add_sub_cancel] at h1
      have h2 : 2 ^ (L + 1) ≤ 2 * (m / 2) := by
        rw [Nat.pow_succ]
        omega
      omega

theorem uBits_bitLen_pos (m : Nat) (hm : 0 < m) :
    uBits (bitLen m) m = true :: uBits (bitLen m - 1) m := by
  have hs : 0 < bitLen m := bitLenGo_pos m m hm (Nat.le_refl m)
  obtain ⟨n, hn⟩ : ∃ n, bitLen m = n + 1 := ⟨bitLen m - 1, by omega⟩
  rw [hn]
  simp only [uBits, Nat.add_sub_cancel]
  have hlt : m < 2 ^ (n + 1) := by
    have := lt_pow_bitLen m
    rwa [hn] at this
  have hge : 2 ^ n ≤ m := by
    have := pow_bitLen_le m m hm (Nat.le_refl m)
    rw [show bitLenGo m m = bitLen m from rfl, hn, Nat.add_sub_cancel] at this
    exact this
  have : m.testBit n = true := by
    have hdiv : m / 2 ^ n = 1 := by
      have h1 : 1 ≤ m / 2 ^ n := (Nat.le_div_iff_mul_le (Nat.pos_pow_of_pos n (by omega))).mpr (by omega)
      have h2 : m / 2 ^ n < 2 := Nat.div_lt_of_lt_mul (by rw [← Nat.pow_succ]; omega)
      omega
    simp [Nat.testBit, Nat.shiftRight_eq_div_pow, hdiv]
  rw [this]

theorem readUe_append (k : Nat) (r : List Bool) :
    readUe (ueBits k ++ r) = some (k, r) := by
  unfold readUe ueBits
  have hm : 0 < k + 1 := by omega
  have hsz : 0 < bitLen (k + 1) := bitLenGo_pos (k + 1) (k + 1) hm (Nat.le_refl _)
  rw [List.append_assoc, uBits_bitLen_pos _ hm, List.cons_append]
  rw [splitZeros_append (bitLen (k + 1) - 1) (uBits (bitLen (k + 1) - 1) (k + 1) ++ r)]
  have hone : bitLen (k + 1) - 1 + 1 = bitLen (k + 1) := by omega
  simp only [hone]
  have : readU (bitLen (k + 1)) (uBits (bitLen (k + 1)) (k + 1) ++ r) = some (k + 1, r) := by
    exact readU_exact _ _ _ (lt_pow_bitLen (k + 1))
  rw [← List.cons_append, ← uBits_bitLen_pos _ hm, this]
  simp

/-!
## Blockset codec (`src/blockset.py`)

Tiles carry an `Int` index because the Python `Tile.idx` attribute is a plain
integer that other code (and the decoder's sibling rule `t1 - 1`) can drive
negative or above 11 bits; only the `Tile(val)` constructor masks.
-/

namespace Blockset

inductive Attr where
  | HFLIP
  | VFLIP
  | PRIORITY
deriving DecidableEq

structure Tile where
  idx : Int
  hflip : Bool
  vflip : Bool
  priority : Bool
deriving DecidableEq, Repr

/-- The `Tile(val)` constructor: masks the index and extracts flag bits. -/
def Tile.ofVal (val : Nat) : Tile :=
  ⟨(val &&& 0x7FF : Nat), (val &&& 0x800) > 0, (val &&& 0x1000) > 0,
   (val &&& 0x8000) > 0⟩

/-- `Tile.set_attr`. -/
def Tile.setA (t : Tile) : Attr → Tile
  | .HFLIP => { t with hflip := true }
  | .VFLIP => { t with vflip := true }
  | .PRIORITY => { t with priority := true }

/-- `Tile.has_attr`. -/
def Tile.hasA (t : Tile) : Attr → Bool
  | .HFLIP => t.hflip
  | .VFLIP => t.vflip
  | .PRIORITY => t.priority

/-- `Bits(uint=v, length=n)` on an integer: `bitstring` raises a
`CreationError` unless `0 ≤ v < 2^n`. -/
def writeU (n : Nat) (v : Int) : Except String (List Bool) :=
  if 0 ≤ v ∧ v < (2 : Int) ^ n then .ok (LandTool.uBits n v.toNat)
  else .error "CreationError"

/-- The loop body of `encode_mask`: remaining tiles, the current
`tile_has_attribute` flag, and `current_run`; emits one exp-Golomb value at
each attribute change and flushes the final run only when it is nonzero. -/
def encodeMaskGo (a : Attr) : List Tile → Bool → Nat → List Bool
  | [], _, run => if run > 0 then LandTool.ueBits run else []
  | t :: ts, cur, run =>
    if t.hasA a ≠ cur then LandTool.ueBits run ++ encodeMaskGo a ts (t.hasA a) 0
    else encodeMaskGo a ts cur (run + 1)

/-- `encode_mask(stream, tiles, attr)`: starts with `tile_has_attribute =
False` and `current_run = 0`. -/
def encode_mask (tiles : List Tile) (a : Attr) : List Bool :=
  encodeMaskGo a tiles false 0

/-- `tiles[i].set_attr(attr)` on a tile list; `none` is Python's
`IndexError`. -/
def setAttrAt (a : Attr) : List Tile → Nat → Option (List Tile)
  | [], _ => none
  | t :: ts, 0 => some (t.setA a :: ts)
  | t :: ts, i + 1 => (setAttrAt a ts i).map (t :: ·)

/-- The inner `for j in range(num)` loop of `mask_tiles`: indexes (and can
fail) only when `set_attr` is true, exactly as the source only evaluates
`tiles[i + j]` under the `if set_attr:` guard. -/
def setAttrRun (a : Attr) (onb : Bool) : List Tile → Nat → Nat → Option (List Tile)
  | ts, _, 0 => some ts
  | ts, i, n + 1 =>
    if onb then (setAttrAt a ts i).bind (fun ts2 => setAttrRun a onb ts2 (i + 1) n)
    else setAttrRun a onb ts (i + 1) n

/-- The `while i < len(tiles)` loop of `mask_tiles`, with fuel. State:
`set_attr`, cursor `i` and the re-seeded `num`. -/
def maskTilesGo (a : Attr) : Nat → List Tile → List Bool → Bool → Nat → Nat →
    Option (List Tile × List Bool)
  | 0, _, _, _, _, _ => none
  | fuel + 1, ts, s, onb, i, num0 =>
    if i < ts.length then
      (LandTool.readUe s).bind (fun p =>
        (setAttrRun a (!onb) ts i (num0 + p.1)).bind (fun ts2 =>
          maskTilesGo a fuel ts2 p.2 (!onb) (i + (num0 + p.1)) 1))
    else some (ts, s)

/-- `mask_tiles(tiles, attr, stream)`: `set_attr` starts `True` (toggled to
`False` on the first iteration), `num` starts 0.  After the first iteration
every iteration advances `i` by at least one, so `len(tiles) + 2` fuel can
never be exhausted. -/
def mask_tiles (tiles : List Tile) (a : Attr) (s : List Bool) :
    Option (List Tile × List Bool) :=
  maskTilesGo a (tiles.length + 2) tiles s true 0 0

/-- `queue.index(v)`: index of the first occurrence. -/
def listIdx (v : Int) : List Int → Option Nat
  | [] => none
  | x :: xs => if x = v then some 0 else (listIdx v xs).map (· + 1)

/-- `queue.insert(0, queue.pop(i))`: move the element at `i` to the front. -/
def mtfMove (q : List Int) (i : Nat) : List Int :=
  match q.get? i with
  | some x => x :: q.eraseIdx i
  | none => q

/-- `encode_tile(stream, tile_index, queue)`: a queue hit emits flag bit `1`
plus a 4-bit queue index and moves the entry to the front; otherwise flag
bit `0` plus an 11-bit literal, pushed at the front with the last entry
dropped.  The 11-bit write errors before the queue is touched. -/
def encode_tile (q : List Int) (v : Int) : Except String (List Bool × List Int) :=
  match listIdx v q with
  | some i =>
    match writeU 4 (i : Int) with
    | .ok w => .ok (true :: w, mtfMove q i)
    | .error e => .error e
  | none =>
    match writeU 11 v with
    | .ok w => .ok (false :: w, (v :: q).dropLast)
    | .error e => .error e

/-- Python's `tiles[i+1].idx == tiles[i].idx + (-1 if tiles[i].hflip else 1)`. -/
def sibling (t1 t2 : Tile) : Bool :=
  t2.idx = t1.idx + (if t1.hflip then -1 else 1)

/-- The pair loop of `compress` (`for i in range(0, len(tiles), 2)`): an odd
tail raises `IndexError` when `tiles[i + 1]` is evaluated. -/
def compressPairs : List Tile → List Int → Except String (List Bool)
  | [], _ => .ok []
  | [_], _ => .error "IndexError"
  | t1 :: t2 :: ts, q =>
    match encode_tile q t1.idx with
    | .error e => .error e
    | .ok (b1, q1) =>
      if sibling t1 t2 then
        match compressPairs ts q1 with
        | .error e => .error e
        | .ok rest => .ok (b1 ++ true :: rest)
      else
        match encode_tile q1 t2.idx with
        | .error e => .error e
        | .ok (b2, q2) =>
          match compressPairs ts q2 with
          | .error e => .error e
          | .ok rest => .ok (b1 ++ false :: b2 ++ rest)

/-- `compress(tiles)`: 16-bit block count `len(tiles)//4`, the three
attribute masks in PRIORITY, VFLIP, HFLIP order, then the MTF pair stream.
No validation of the input length is performed. -/
def compress (tiles : List Tile) : Except String (List Bool) := do
  let hdr ← writeU 16 ((tiles.length / 4 : Nat) : Int)
  let body ← compressPairs tiles (List.replicate 16 0)
  return (hdr ++ encode_mask tiles .PRIORITY ++ encode_mask tiles .VFLIP ++
          encode_mask tiles .HFLIP ++ body)

/-- `bytes(compress(tiles))` as performed by `start_compress`. -/
def compressBytes (tiles : List Tile) : Except String (List Nat) :=
  match compress tiles with
  | .error e => .error e
  | .ok bits => .ok (LandTool.bytesOfBits bits)

/-- `decode_tile(stream, queue)`. -/
def decode_tile (s : List Bool) (q : List Int) :
    Option (Int × List Bool × List Int) :=
  match s with
  | [] => none
  | true :: s1 =>
    match LandTool.readU 4 s1 with
    | none => none
    | some (i, s2) =>
      match q.get? i with
      | none => none
      | some x => some (x, s2, x :: q.eraseIdx i)
  | false :: s1 =>
    match LandTool.readU 11 s1 with
    | none => none
    | some (v, s2) => some ((v : Int), s2, ((v : Int) :: q).dropLast)

/-- The tile-pair decoding loop of `decompress`: first tile by MTF, then a
sibling bit selecting `t1 ± 1` or an independently decoded second tile. -/
def decodePairs : List Tile → List Bool → List Int →
    Option (List Tile × List Bool × List Int)
  | [], s, q => some ([], s, q)
  | [_], _, _ => none
  | t1 :: t2 :: ts, s, q =>
    match decode_tile s q with
    | none => none
    | some (v1, s1, q1) =>
      match s1 with
      | [] => none
      | b :: s2 =>
        if b then
          let v2 : Int := if t1.hflip then v1 - 1 else v1 + 1
          match decodePairs ts s2 q1 with
          | none => none
          | some (rest, s3, q3) =>
            some ({ t1 with idx := v1 } :: { t2 with idx := v2 } :: rest, s3, q3)
        else
          match decode_tile s2 q1 with
          | none => none
          | some (v2, s3, q2) =>
            match decodePairs ts s3 q2 with
            | none => none
            | some (rest, s4, q4) =>
              some ({ t1 with idx := v1 } :: { t2 with idx := v2 } :: rest, s4, q4)

/-- Groups the flat decoded tile list into blocks of 4. -/
def chunk4 : List Tile → List (List Tile)
  | [] => []
  | t1 :: t2 :: t3 :: t4 :: rest => [t1, t2, t3, t4] :: chunk4 rest
  | short => [short]

/-- `decompress(stream)`: 16-bit block count, three attribute masks onto
fresh zero tiles, then the MTF pair stream; finally grouped into blocks. -/
def decompress (s : List Bool) : Option (List (List Tile)) :=
  match LandTool.readU 16 s with
  | none => none
  | some (n, s1) =>
    let tiles0 := List.replicate (n * 4) (Tile.ofVal 0)
    match mask_tiles tiles0 .PRIORITY s1 with
    | none => none
    | some (ts1, s2) =>
      match mask_tiles ts1 .VFLIP s2 with
      | none => none
      | some (ts2, s3) =>
        match mask_tiles ts2 .HFLIP s3 with
        | none => none
        | some (ts3, s4) =>
          match decodePairs ts3 s4 (List.replicate 16 0) with
          | none => none
          | some (ts4, _, _) => some (chunk4 ts4)


/-- Flag-level rendering of the `encode_mask` loop: the encoder depends on
tiles only through `has_attr`. -/
def encFlags : List Bool → Bool → Nat → List Bool
  | [], _, run => if run > 0 then LandTool.ueBits run else []
  | b :: bs, cur, run =>
    if b ≠ cur then LandTool.ueBits run ++ encFlags bs b 0
    else encFlags bs cur (run + 1)

theorem encodeMaskGo_eq_encFlags (a : Attr) :
    ∀ (ts : List Tile) (cur : Bool) (run : Nat),
    encodeMaskGo a ts cur run = encFlags (ts.map (fun t => t.hasA a)) cur run := by
  intro ts
  induction ts with
  | nil => intro cur run; rfl
  | cons t ts ih =>
    intro cur run
    by_cases hc : t.hasA a = cur
    · simp [encodeMaskGo, encFlags, hc, ih]
    · simp [encodeMaskGo, encFlags, hc, ih]

/-- Specification of what one decoded mask does to a tile list: position `j`
gets `set_attr` applied exactly when flag `j` is set. -/
def maskZip (a : Attr) : List Tile → List Bool → List Tile
  | ts, [] => ts
  | [], _ => []
  | t :: ts, b :: fs => (if b then t.setA a else t) :: maskZip a ts fs

/-- The last two entries of `l` exist and are equal. -/
def lastTwoEq (l : List Bool) : Prop :=
  match l.reverse with
  | x :: y :: _ => x = y
  | _ => False

theorem lastTwoEq_append (xs ys : List Bool) (h : 2 ≤ ys.length) :
    lastTwoEq (xs ++ ys) ↔ lastTwoEq ys := by
  unfold lastTwoEq
  rw [List.reverse_append]
  have hl : 2 ≤ ys.reverse.length := by rw [List.length_reverse]; exact h
  cases hry : ys.reverse with
  | nil => rw [hry] at hl; simp at hl
  | cons x t =>
    cases t with
    | nil => rw [hry] at hl; simp at hl
    | cons y t2 => simp

theorem lastTwoEq_replicate_snoc (m : Nat) (c b : Bool) (h : b ≠ c) :
    ¬ lastTwoEq (List.replicate m c ++ [b]) := by
  intro hl
  unfold lastTwoEq at hl
  rw [List.reverse_append, List.reverse_replicate] at hl
  cases m with
  | zero => simp at hl
  | succ m =>
    rw [List.replicate_succ] at hl
    simp at hl
    exact h hl

theorem setA_hasA (t : Tile) (a : Attr) : (t.setA a).hasA a = true := by
  cases a <;> rfl

theorem maskZip_hasA (a : Attr) : ∀ (ts : List Tile) (fs : List Bool),
    ts.length = fs.length → (∀ t ∈ ts, t.hasA a = false) →
    (maskZip a ts fs).map (fun t => t.hasA a) = fs := by
  intro ts
  induction ts with
  | nil =>
    intro fs hl _
    cases fs with
    | nil => rfl
    | cons b fs => simp at hl
  | cons t ts ih =>
    intro fs hl hf
    cases fs with
    | nil => simp at hl
    | cons b fs =>
      have hl2 : ts.length = fs.length := by simpa using hl
      have hf2 : ∀ u ∈ ts, u.hasA a = false := fun u hu => hf u (List.mem_cons_of_mem t hu)
      cases b with
      | true => simp [maskZip, setA_hasA, ih fs hl2 hf2]
      | false => simp [maskZip, hf t (List.mem_cons_self t ts), ih fs hl2 hf2]

theorem maskZip_replicate (a : Attr) (c : Bool) :
    ∀ (k : Nat) (todo : List Tile) (fs : List Bool), k ≤ todo.length →
    maskZip a todo (List.replicate k c ++ fs) =
      (todo.take k).map (fun t => if c then t.setA a else t) ++
        maskZip a (todo.drop k) fs := by
  intro k
  induction k with
  | zero => intro todo fs _; simp
  | succ k ih =>
    intro todo fs hk
    cases todo with
    | nil => simp at hk
    | cons t todo2 =>
      have hk2 : k ≤ todo2.length := by simpa using hk
      simp only [List.replicate_succ, List.cons_append, List.append_eq, maskZip,
        List.take_succ_cons, List.drop_succ_cons, List.map_cons, ih todo2 fs hk2]

theorem setAttrRun_false (a : Attr) : ∀ (n : Nat) (ts : List Tile) (i : Nat),
    setAttrRun a false ts i n = some ts := by
  intro n
  induction n with
  | zero => intro ts i; rfl
  | succ n ih => intro ts i; simp [setAttrRun, ih]

theorem setAttrAt_append (a : Attr) :
    ∀ (done : List Tile) (t : Tile) (rest : List Tile),
    setAttrAt a (done ++ t :: rest) done.length = some (done ++ t.setA a :: rest) := by
  intro done
  induction done with
  | nil => intro t rest; rfl
  | cons d done ih => intro t rest; simp [setAttrAt, ih]

theorem setAttrRun_true (a : Attr) :
    ∀ (k : Nat) (done todo : List Tile), k ≤ todo.length →
    setAttrRun a true (done ++ todo) done.length k =
      some (done ++ (todo.take k).map (fun t => t.setA a) ++ todo.drop k) := by
  intro k
  induction k with
  | zero => intro done todo _; simp [setAttrRun]
  | succ k ih =>
    intro done todo hk
    cases todo with
    | nil => simp at hk
    | cons t todo2 =>
      have hk2 : k ≤ todo2.length := by simpa using hk
      simp only [setAttrRun, if_true, setAttrAt_append, Option.some_bind]
      have harr : done ++ Tile.setA t a :: todo2 = (done ++ [Tile.setA t a]) ++ todo2 := by
        simp
      have hlen : done.length + 1 = (done ++ [Tile.setA t a]).length := by simp
      rw [harr, hlen, ih (done ++ [Tile.setA t a]) todo2 hk2]
      simp

theorem maskZip_nil_flags (a : Attr) (ts : List Tile) : maskZip a ts [] = ts := by
  cases ts <;> rfl

theorem maskGo_exit (a : Attr) (f : Nat) (ts : List Tile) (s : List Bool)
    (onb : Bool) (i num0 : Nat) (h : ts.length ≤ i) :
    maskTilesGo a (f + 1) ts s onb i num0 = some (ts, s) := by
  have hni : ¬ i < ts.length := by omega
  simp [maskTilesGo, hni]

/-- One final-run step of the decoder against the encoder flush. -/
theorem maskGo_final (a : Attr) (f : Nat) (cur : Bool) (run2 num0 : Nat)
    (done todo : List Tile) (rest : List Bool)
    (hlen : todo.length = run2 + num0) (hf : 1 ≤ f)
    (hok : 0 < run2 ∨ run2 + num0 = 0) :
    maskTilesGo a (f + 1) (done ++ todo)
        ((if run2 > 0 then LandTool.ueBits run2 else []) ++ rest) (!cur)
        done.length num0
      = some (done ++ maskZip a todo (List.replicate (run2 + num0) cur), rest) := by
  rcases hok with hpos | hzero
  · rw [if_pos hpos]
    have hlt : done.length < (done ++ todo).length := by
      rw [List.length_append]; omega
    unfold maskTilesGo
    rw [if_pos hlt, LandTool.readUe_append, Option.some_bind]
    have hnum : num0 + run2 = todo.length := by omega
    have hset : setAttrRun a (!(!cur)) (done ++ todo) done.length (num0 + run2)
        = some (done ++ (todo.take (num0 + run2)).map (fun t => if cur then t.setA a else t)
            ++ todo.drop (num0 + run2)) := by
      rw [Bool.not_not]
      cases cur with
      | true =>
        rw [setAttrRun_true a (num0 + run2) done todo (by omega)]
        simp
      | false =>
        rw [setAttrRun_false]
        simp [List.take_append_drop]
    rw [hset, Option.some_bind]
    obtain ⟨f2, hf2⟩ : ∃ f2, f = f2 + 1 := ⟨f - 1, by omega⟩
    rw [hf2]
    rw [maskGo_exit a f2 _ rest (!(!cur)) (done.length + (num0 + run2)) 1 (by
      simp [List.length_append, List.length_take, List.length_map]
      omega)]
    have hz : maskZip a todo (List.replicate (run2 + num0) cur)
        = (todo.take (num0 + run2)).map (fun t => if cur then t.setA a else t)
          ++ todo.drop (num0 + run2) := by
      rw [show (List.replicate (run2 + num0) cur : List Bool)
            = List.replicate (num0 + run2) cur ++ [] from by
        rw [List.append_nil]
        rw [show run2 + num0 = num0 + run2 from by omega]]
      rw [maskZip_replicate a cur (num0 + run2) todo [] (by omega)]
      rw [maskZip_nil_flags]
    rw [hz]
    simp [List.append_assoc]
  · have hr0 : run2 = 0 := by omega
    have hn0 : num0 = 0 := by omega
    have ht0 : todo = [] := by
      have hl0 : todo.length = 0 := by omega
      exact List.length_eq_zero.mp hl0
    subst hr0 hn0 ht0
    simp only [if_neg (by omega : ¬ (0:Nat) > 0), List.nil_append]
    rw [maskGo_exit a f _ rest (!cur) done.length 0 (by simp)]
    simp [maskZip]

theorem encFlags_replicate (cur : Bool) :
    ∀ (j : Nat) (bs2 : List Bool) (run : Nat),
    encFlags (List.replicate j cur ++ bs2) cur run = encFlags bs2 cur (run + j) := by
  intro j
  induction j with
  | zero => intro bs2 run; simp
  | succ j ih =>
    intro bs2 run
    simp only [List.replicate_succ, List.cons_append, List.append_eq, encFlags]
    rw [if_neg (by simp)]
    rw [ih bs2 (run + 1)]
    rw [show run + 1 + j = run + (j + 1) from by omega]

theorem dropWhile_head_not (p : Bool → Bool) : ∀ (l : List Bool) (b : Bool)
    (fs : List Bool), l.dropWhile p = b :: fs → p b = false := by
  intro l
  induction l with
  | nil => intro b fs h; simp [List.dropWhile] at h
  | cons x xs ih =>
    intro b fs h
    by_cases hp : p x = true
    · rw [List.dropWhile_cons_of_pos hp] at h
      exact ih b fs h
    · rw [List.dropWhile_cons_of_neg hp] at h
      cases h
      simpa using hp

theorem flags_run_split (cur : Bool) (l : List Bool) :
    ∃ j fs2, l = List.replicate j cur ++ fs2 ∧
      (fs2 = [] ∨ ∃ b fs3, fs2 = b :: fs3 ∧ b = !cur) := by
  refine ⟨(l.takeWhile (fun x => x == cur)).length, l.dropWhile (fun x => x == cur), ?_, ?_⟩
  · conv_lhs => rw [← List.takeWhile_append_dropWhile (fun x => x == cur) l]
    congr 1
    rw [List.eq_replicate_iff]
    exact ⟨rfl, fun b hb =>
      eq_of_beq (List.mem_takeWhile_imp (p := fun x => x == cur) hb)⟩
  · cases hd : l.dropWhile (fun x => x == cur) with
    | nil => exact Or.inl rfl
    | cons b fs3 =>
      right
      refine ⟨b, fs3, rfl, ?_⟩
      have hhd := dropWhile_head_not (fun x => x == cur) l b fs3 hd
      cases cur <;> cases b <;> simp_all

/-- Simulation of `mask_tiles` against the `encode_mask` output, one run per
decoder iteration.  `fsRem` is the still-unencoded flag suffix, `cur` the
flag of the run in progress, `run` the encoder run counter, and `num0` the
decoder seed (0 only before the first exp-Golomb value has been read). -/
theorem maskGo_sim (a : Attr) (fuel : Nat) :
    ∀ (fsRem : List Bool) (cur : Bool) (run num0 : Nat)
      (done todo : List Tile) (rest : List Bool),
    num0 ≤ 1 →
    todo.length = run + num0 + fsRem.length →
    fsRem.length + 2 ≤ fuel →
    ((fsRem = [] ∧ (0 < run ∨ run + num0 = 0)) ∨
      (fsRem ≠ [] ∧ lastTwoEq (List.replicate (run + num0) cur ++ fsRem))) →
    maskTilesGo a fuel (done ++ todo) (encFlags fsRem cur run ++ rest) (!cur)
        done.length num0
      = some (done ++ maskZip a todo (List.replicate (run + num0) cur ++ fsRem),
          rest) := by
  induction fuel with
  | zero => intro fsRem cur run num0 done todo rest _ _ h3 _; omega
  | succ f ih =>
    intro fsRem cur run num0 done todo rest h1 h2 h3 h4
    obtain ⟨j, fs2, hfsrem, hfs2p⟩ := flags_run_split cur fsRem
    rcases hfs2p with hnil | ⟨b, fs3, hcons, hb⟩
    · -- the flag suffix is one last (possibly empty) run of `cur`
      subst hnil
      subst hfsrem
      rw [encFlags_replicate cur j [] run]
      have hmz : List.replicate (run + num0) cur ++ (List.replicate j cur ++ [])
          = List.replicate ((run + j) + num0) cur := by
        rw [List.append_nil, ← List.replicate_add]
        rw [show run + num0 + j = (run + j) + num0 from by omega]
      rw [hmz]
      have hok2 : 0 < run + j ∨ (run + j) + num0 = 0 := by
        rcases h4 with ⟨hnil2, hok⟩ | ⟨hne, _⟩
        · have hj0 : j = 0 := by
            have hlenz := congrArg List.length hnil2
            simpa using hlenz
          omega
        · have hj1 : 1 ≤ j := by
            rcases Nat.eq_zero_or_pos j with hj | hj
            · rw [hj] at hne; simp at hne
            · omega
          omega
      have hlen2 : todo.length = (run + j) + num0 := by
        simp [List.length_replicate] at h2
        omega
      exact maskGo_final a f cur (run + j) num0 done todo rest hlen2 (by
        simp [List.length_replicate] at h3
        omega) hok2
    · -- a complete run of `cur` then a flag change to `b = !cur`
      subst hcons
      subst hfsrem
      have hflen : (List.replicate j cur ++ b :: fs3).length = j + 1 + fs3.length := by
        simp
        omega
      rw [encFlags_replicate cur j (b :: fs3) run]
      rw [show encFlags (b :: fs3) cur (run + j)
            = LandTool.ueBits (run + j) ++ encFlags fs3 b 0 from by
        show (if b ≠ cur then LandTool.ueBits (run + j) ++ encFlags fs3 b 0
              else encFlags fs3 cur (run + j + 1)) = _
        rw [if_pos (by rw [hb]; cases cur <;> simp)]]
      have htlen : 0 < todo.length := by
        rw [h2, hflen]
        omega
      have hlt : done.length < (done ++ todo).length := by
        rw [List.length_append]
        omega
      unfold maskTilesGo
      rw [if_pos hlt]
      rw [List.append_assoc, LandTool.readUe_append]
      simp only [Option.some_bind]
      have hk : num0 + (run + j) ≤ todo.length := by
        rw [h2, hflen]
        omega
      have hset : setAttrRun a (!(!cur)) (done ++ todo) done.length (num0 + (run + j))
          = some (done ++ (todo.take (num0 + (run + j))).map
                (fun t => if cur then t.setA a else t)
              ++ todo.drop (num0 + (run + j))) := by
        rw [Bool.not_not]
        cases cur with
        | true =>
          rw [setAttrRun_true a (num0 + (run + j)) done todo hk]
          simp
        | false =>
          rw [setAttrRun_false]
          simp [List.take_append_drop]
      rw [hset]
      simp only [Option.some_bind]
      have hdlen : done.length + (num0 + (run + j))
          = (done ++ (todo.take (num0 + (run + j))).map
              (fun t => if cur then t.setA a else t)).length := by
        simp [List.length_append, List.length_map, List.length_take]
        omega
      have hrec := ih fs3 b 0 1
        (done ++ (todo.take (num0 + (run + j))).map (fun t => if cur then t.setA a else t))
        (todo.drop (num0 + (run + j))) rest
        (by omega)
        (by
          simp [List.length_drop]
          rw [h2, hflen]
          omega)
        (by
          rw [hflen] at h3
          omega)
        (by
          cases fs3 with
          | nil =>
            exfalso
            rcases h4 with ⟨hnil2, _⟩ | ⟨_, hlt2⟩
            · simp at hnil2
            · have hre : List.replicate (run + num0) cur ++ (List.replicate j cur ++ [b])
                  = List.replicate (run + num0 + j) cur ++ [b] := by
                rw [← List.append_assoc, ← List.replicate_add]
              rw [hre] at hlt2
              exact lastTwoEq_replicate_snoc (run + num0 + j) cur b (by rw [hb]; cases cur <;> simp) hlt2
          | cons c fs4 =>
            refine Or.inr ⟨by simp, ?_⟩
            rw [show List.replicate (0 + 1) b ++ c :: fs4 = b :: c :: fs4 from by simp]
            rcases h4 with ⟨hnil2, _⟩ | ⟨_, hlt2⟩
            · simp at hnil2
            · rw [← List.append_assoc] at hlt2
              exact (lastTwoEq_append _ (b :: c :: fs4)
                (by simp only [List.length_cons]; omega)).mp hlt2)
      rw [show (!!cur : Bool) = !b from by rw [hb]]
      rw [hdlen]
      rw [hrec]
      have hfin : (todo.take (num0 + (run + j))).map (fun t => if cur then t.setA a else t)
            ++ maskZip a (todo.drop (num0 + (run + j))) (List.replicate (0 + 1) b ++ fs3)
          = maskZip a todo
              (List.replicate (run + num0) cur ++ (List.replicate j cur ++ b :: fs3)) := by
        have hrw2 : List.replicate (run + num0) cur ++ (List.replicate j cur ++ b :: fs3)
            = List.replicate (num0 + (run + j)) cur ++ (b :: fs3) := by
          rw [← List.append_assoc, ← List.replicate_add]
          rw [show run + num0 + j = num0 + (run + j) from by omega]
        rw [hrw2]
        rw [maskZip_replicate a cur (num0 + (run + j)) todo (b :: fs3) hk]
        rw [show List.replicate (0 + 1) b ++ fs3 = b :: fs3 from by simp]
      rw [List.append_assoc done, hfin]

end Blockset

/-!
### Claim theorems for the blockset codec
-/

/-- C4: `compress` performs no up-front multiple-of-4 validation: the
two-tile input (length ≡ 2 mod 4) is accepted without any error and yields a
5-byte stream whose 16-bit header records `2 // 4 = 0` blocks.  The spec and
the claim say such input is rejected before any output is produced. -/
theorem blockset_compress_accepts_non_multiple_of_4 :
    Blockset.compressBytes [Blockset.Tile.ofVal 0, Blockset.Tile.ofVal 0]
      = Except.ok [0x00, 0x00, 0x6D, 0xC1, 0x00] := by
  decide

/-- C6 counterexample: the bit sequence the claim describes — `0x00 0x01`,
one single-bit exp-Golomb `0` per attribute mask (three `1` bits), then a
new-tile record `0` + eleven `0` bits, a sibling bit `0`, and a second
new-tile record — padded to bytes is `00 01 E0 00 00 00`; `compress` on one
block of four zero tiles does not produce it (the MTF queue starts as
sixteen zeros, so index 0 is emitted as a reuse record `1 0000`, and each
all-off mask is the exp-Golomb of 4, `00101`). -/
theorem blockset_seed_bytes_claim_false :
    Blockset.compressBytes (List.replicate 4 (Blockset.Tile.ofVal 0))
      ≠ Except.ok [0x00, 0x01, 0xE0, 0x00, 0x00, 0x00] := by
  decide

/-- C6 amended: one block of four zero tiles compresses to exactly
`00 01 29 4B 04 20 80`: the 16-bit count 1, three times the exp-Golomb of 4
(`00101`, one all-off run covering the 4 tiles), and for each tile a queue-reuse
record `1 0000` with sibling bits `0` between pair halves; decompressing
those bytes recovers the single block of four zero tiles. -/
theorem blockset_seed_bytes :
    Blockset.compressBytes (List.replicate 4 (Blockset.Tile.ofVal 0))
        = Except.ok [0x00, 0x01, 0x29, 0x4B, 0x04, 0x20, 0x80] ∧
    Blockset.decompress
        (bitsOfBytes [0x00, 0x01, 0x29, 0x4B, 0x04, 0x20, 0x80])
      = some [List.replicate 4 (Blockset.Tile.ofVal 0)] := by
  constructor
  · decide
  · decide

namespace Blockset

/-- Invariant of the MTF queue during `compress`: every cached index is a
valid 11-bit literal. -/
def queueOk (q : List Int) : Prop := ∀ x ∈ q, 0 ≤ x ∧ x < 2048

/-- Safety shape of a tile sequence that `compress` accepts: even pair
positions hold 11-bit indices, odd pair positions hold either an 11-bit
index or exactly the sibling value `prev ± 1`. -/
def pairSafe : List Tile → Prop
  | [] => True
  | [_] => False
  | t1 :: t2 :: rest =>
    (0 ≤ t1.idx ∧ t1.idx < 2048) ∧
    ((0 ≤ t2.idx ∧ t2.idx < 2048) ∨
      t2.idx = t1.idx + (if t1.hflip then -1 else 1)) ∧
    pairSafe rest

theorem listIdx_mem (v : Int) : ∀ (q : List Int) (i : Nat),
    listIdx v q = some i → v ∈ q := by
  intro q
  induction q with
  | nil => intro i h; simp [listIdx] at h
  | cons x xs ih =>
    intro i h
    by_cases hx : x = v
    · rw [hx]; exact List.mem_cons_self _ _
    · simp only [listIdx, hx, if_false] at h
      cases hj : listIdx v xs with
      | none => rw [hj] at h; simp at h
      | some j => exact List.mem_cons_of_mem _ (ih j hj)

theorem mtfMove_mem (q : List Int) (i : Nat) (x : Int) (h : x ∈ mtfMove q i) :
    x ∈ q := by
  unfold mtfMove at h
  cases hg : q.get? i with
  | none => rw [hg] at h; exact h
  | some y =>
    rw [hg] at h
    cases h with
    | head => exact List.get?_mem hg
    | tail _ h2 => exact List.eraseIdx_subset q i h2

theorem encode_tile_safe (q : List Int) (v : Int) (w : List Bool)
    (q2 : List Int) (hq : queueOk q) (h : encode_tile q v = .ok (w, q2)) :
    (0 ≤ v ∧ v < 2048) ∧ queueOk q2 := by
  unfold encode_tile at h
  cases hidx : listIdx v q with
  | some i =>
    simp only [hidx] at h
    have hv : v ∈ q := listIdx_mem v q i hidx
    cases hw : writeU 4 (i : Int) with
    | error e => simp only [hw] at h; exact Except.noConfusion h
    | ok wb =>
      simp only [hw, Except.ok.injEq, Prod.mk.injEq] at h
      obtain ⟨_, hq2⟩ := h
      subst hq2
      exact ⟨hq v hv, fun x hx => hq x (mtfMove_mem q i x hx)⟩
  | none =>
    simp only [hidx] at h
    unfold writeU at h
    by_cases hv : 0 ≤ v ∧ v < (2 : Int) ^ 11
    · rw [if_pos hv] at h
      simp only [Except.ok.injEq, Prod.mk.injEq] at h
      obtain ⟨_, hq2⟩ := h
      subst hq2
      refine ⟨⟨hv.1, by exact_mod_cast hv.2⟩, fun x hx => ?_⟩
      have hsub := List.dropLast_subset (v :: q) hx
      cases hsub with
      | head => exact ⟨hv.1, by exact_mod_cast hv.2⟩
      | tail _ h2 => exact hq x h2
    · rw [if_neg hv] at h
      simp at h

theorem compressPairs_safe : ∀ (ts : List Tile) (q : List Int) (s : List Bool),
    queueOk q → compressPairs ts q = .ok s → pairSafe ts
  | [], _, _, _, _ => trivial
  | [_], _, _, _, h => by simp [compressPairs] at h
  | t1 :: t2 :: ts2, q, s, hq, h => by
    unfold compressPairs at h
    cases h1 : encode_tile q t1.idx with
    | error e => simp only [h1] at h; exact Except.noConfusion h
    | ok p1 =>
      obtain ⟨b1, q1⟩ := p1
      simp only [h1] at h
      have hs1 := encode_tile_safe q t1.idx b1 q1 hq h1
      by_cases hsib : sibling t1 t2
      · simp only [hsib, if_true] at h
        cases h2 : compressPairs ts2 q1 with
        | error e => simp only [h2] at h; exact Except.noConfusion h
        | ok rest2 =>
          have hrel : t2.idx = t1.idx + (if t1.hflip then -1 else 1) := by
            have hd := hsib
            unfold sibling at hd
            exact of_decide_eq_true hd
          exact ⟨hs1.1, Or.inr hrel, compressPairs_safe ts2 q1 rest2 hs1.2 h2⟩
      · simp only [hsib, if_false] at h
        cases h2 : encode_tile q1 t2.idx with
        | error e => simp only [h2] at h; exact Except.noConfusion h
        | ok p2 =>
          obtain ⟨b2, q2⟩ := p2
          simp only [h2] at h
          have hs2 := encode_tile_safe q1 t2.idx b2 q2 hs1.2 h2
          cases h3 : compressPairs ts2 q2 with
          | error e => simp only [h3] at h; exact Except.noConfusion h
          | ok rest3 =>
            exact ⟨hs1.1, Or.inl hs2.1, compressPairs_safe ts2 q2 rest3 hs2.2 h3⟩

end Blockset

/-- C10 amended: literal tile indices are indeed written as exact 11-bit
fields, so a `compress` call that returns successfully only ever encoded
11-bit literals — every even pair position satisfies `0 ≤ idx < 2048`, and
every odd pair position either satisfies the same bound or is exactly the
sibling value `prev ± 1` (which can be `0x800`, as the counterexample
shows, so the claim's `≤ 0x7FF` bound on the whole stream is too strong). -/
theorem except_bind_ok {e a b : Type} (x : Except e a) (f : a → Except e b)
    (v : b) (h : x.bind f = .ok v) : ∃ u, x = .ok u ∧ f u = .ok v := by
  cases x with
  | error err => exact Except.noConfusion h
  | ok u => exact ⟨u, rfl, h⟩

theorem blockset_compress_literals_bounded (tiles : List Blockset.Tile)
    (s : List Bool) (h : Blockset.compress tiles = .ok s) :
    Blockset.pairSafe tiles := by
  unfold Blockset.compress at h
  obtain ⟨hdr, hw, h2⟩ := except_bind_ok _ _ _ h
  obtain ⟨body, hc, h3⟩ := except_bind_ok _ _ _ h2
  refine Blockset.compressPairs_safe tiles (List.replicate 16 0) body
    (fun x hx => ?_) hc
  rw [List.mem_replicate] at hx
  rw [hx.2]
  exact ⟨le_refl 0, by norm_num⟩

/-- Witness for the amended C10 theorem at the four-zero-tile block. -/
theorem blockset_compress_literals_bounded_witness :
    Blockset.pairSafe (List.replicate 4 (Blockset.Tile.ofVal 0)) :=
  blockset_compress_literals_bounded (List.replicate 4 (Blockset.Tile.ofVal 0))
    [false, false, false, false, false, false, false, false,
     false, false, false, false, false, false, false, true,
     false, false, true, false, true, false, false, true,
     false, true, false, false, true, false, true, true,
     false, false, false, false, false, true, false, false,
     false, false, true, false, false, false, false, false,
     true, false, false, false, false]
    (by decide)

/-- C10 counterexample: a tile with index `0x800 = 2048` at an odd pair
position is encoded successfully through the sibling shortcut (its
predecessor has index `0x7FF` and no hflip), and decoding the resulting
stream reproduces the out-of-range index 2048 — so a successfully returned
stream does not encode only tile indices `≤ 0x7FF`. -/
theorem blockset_sibling_overrange :
    (Blockset.compress
        [⟨0x7FF, false, false, false⟩, ⟨0x800, false, false, false⟩,
         ⟨0, false, false, false⟩, ⟨0, false, false, false⟩]).map
      (fun bits => Blockset.decompress bits)
      = Except.ok (some
          [[⟨0x7FF, false, false, false⟩, ⟨0x800, false, false, false⟩,
            ⟨0, false, false, false⟩, ⟨0, false, false, false⟩]]) := by
  decide


/-- C2 counterexample: tiles whose PRIORITY flags are F,F,F,T (final run of
length 1).  `encode_mask` writes only the exp-Golomb for the finished
three-tile off-run and skips the final zero-valued flush, so `mask_tiles`
exhausts the stream trying to read the on-run's exp-Golomb value and fails
instead of reconstructing the flag sequence from exactly the written bits. -/
theorem blockset_mask_last_run_lost :
    Blockset.mask_tiles (List.replicate 4 (Blockset.Tile.ofVal 0)) .PRIORITY
        (Blockset.encode_mask
          [Blockset.Tile.ofVal 0, Blockset.Tile.ofVal 0, Blockset.Tile.ofVal 0,
           Blockset.Tile.ofVal 0x8000] .PRIORITY)
      = none := by
  decide

/-- C2 amended: for every flat tile sequence whose length is a multiple of 4
and whose final two tiles agree on the attribute (so the final run has length
at least 2), and for each attribute, decoding the mask written by
`encode_mask` with `mask_tiles` onto fresh tiles reconstructs exactly the
sequence `[tile.has_attr(a) for tile in tiles]` that was encoded, consuming
exactly the bits that `encode_mask` wrote. -/
theorem blockset_mask_roundtrip (tiles ts0 : List Blockset.Tile)
    (a : Blockset.Attr) (rest : List Bool)
    (hlen : ts0.length = tiles.length)
    (hfresh : ∀ t ∈ ts0, t.hasA a = false)
    (hmul : tiles.length % 4 = 0)
    (hlast : 2 ≤ tiles.length →
      Blockset.lastTwoEq (tiles.map (fun t => t.hasA a))) :
    Blockset.mask_tiles ts0 a (Blockset.encode_mask tiles a ++ rest)
        = some (Blockset.maskZip a ts0 (tiles.map (fun t => t.hasA a)), rest) ∧
    (Blockset.maskZip a ts0 (tiles.map (fun t => t.hasA a))).map
        (fun t => t.hasA a)
      = tiles.map (fun t => t.hasA a) := by
  have hflen : (tiles.map (fun t => t.hasA a)).length = tiles.length :=
    List.length_map tiles _
  constructor
  · unfold Blockset.mask_tiles Blockset.encode_mask
    rw [Blockset.encodeMaskGo_eq_encFlags]
    have hsim := Blockset.maskGo_sim a (ts0.length + 2)
      (tiles.map (fun t => t.hasA a)) false 0 0 [] ts0 rest
      (by omega)
      (by rw [hflen]; omega)
      (by rw [hflen]; omega)
      (by
        by_cases ht : tiles = []
        · subst ht
          exact Or.inl ⟨rfl, Or.inr rfl⟩
        · right
          have hne : tiles.map (fun t => t.hasA a) ≠ [] := by
            cases tiles with
            | nil => exact absurd rfl ht
            | cons x xs => simp
          refine ⟨hne, ?_⟩
          have h2 : 2 ≤ tiles.length := by
            have h1 : 1 ≤ tiles.length := by
              cases tiles with
              | nil => exact absurd rfl ht
              | cons x xs => simp
            omega
          simpa using hlast h2)
    simpa using hsim
  · exact Blockset.maskZip_hasA a ts0 (tiles.map (fun t => t.hasA a))
      (by rw [hflen]; omega) hfresh

/-- Witness for the amended C2 theorem: four tiles with PRIORITY flags
T,T,F,F, decoded onto four fresh tiles with two trailing stream bits. -/
theorem blockset_mask_roundtrip_witness :
    Blockset.mask_tiles (List.replicate 4 (Blockset.Tile.ofVal 0)) .PRIORITY
        (Blockset.encode_mask
          [Blockset.Tile.ofVal 0x8000, Blockset.Tile.ofVal 0x8000,
           Blockset.Tile.ofVal 0, Blockset.Tile.ofVal 0] .PRIORITY ++ [true])
        = some (Blockset.maskZip .PRIORITY
            (List.replicate 4 (Blockset.Tile.ofVal 0))
            ([Blockset.Tile.ofVal 0x8000, Blockset.Tile.ofVal 0x8000,
              Blockset.Tile.ofVal 0, Blockset.Tile.ofVal 0].map
              (fun t => t.hasA .PRIORITY)), [true]) ∧
    (Blockset.maskZip .PRIORITY (List.replicate 4 (Blockset.Tile.ofVal 0))
        ([Blockset.Tile.ofVal 0x8000, Blockset.Tile.ofVal 0x8000,
          Blockset.Tile.ofVal 0, Blockset.Tile.ofVal 0].map
          (fun t => t.hasA .PRIORITY))).map (fun t => t.hasA .PRIORITY)
      = [Blockset.Tile.ofVal 0x8000, Blockset.Tile.ofVal 0x8000,
         Blockset.Tile.ofVal 0, Blockset.Tile.ofVal 0].map
          (fun t => t.hasA .PRIORITY) :=
  blockset_mask_roundtrip
    [Blockset.Tile.ofVal 0x8000, Blockset.Tile.ofVal 0x8000,
     Blockset.Tile.ofVal 0, Blockset.Tile.ofVal 0]
    (List.replicate 4 (Blockset.Tile.ofVal 0)) .PRIORITY [true]
    (by decide) (by decide) (by decide) (fun _ => rfl)


/-!
## Tilemap2D codec (`src/scripts/common/codecs/tilemap2d.py`, tiles from
`src/scripts/common/models/tile.py`)
-/

namespace Tilemap2D

/-- The `scripts` `Tile` model: `set_val` masks an 11-bit index and extracts
the three flag bits; `get_val` reassembles them. -/
structure T2 where
  idx : Nat
  hflip : Bool
  vflip : Bool
  priority : Bool
deriving DecidableEq, Repr

/-- `Tile.set_val(val)` (also the `Tile(val)` constructor). -/
def T2.set_val (_ : T2) (v : Nat) : T2 :=
  ⟨v &&& 0x7FF, (v &&& 0x800) > 0, (v &&& 0x1000) > 0, (v &&& 0x8000) > 0⟩

/-- `Tile.get_val()`. -/
def T2.get_val (t : T2) : Nat :=
  (t.idx &&& 0x7FF) ||| (if t.hflip then 0x800 else 0) |||
    (if t.vflip then 0x1000 else 0) ||| (if t.priority then 0x8000 else 0)

/-- A fresh `Tile()` as built by `_read_header`. -/
def freshT2 : T2 := ⟨0, false, false, false⟩

/-- `tiles[i].set_val(attrs)`; `none` is `IndexError`. -/
def setValAt : List T2 → Nat → Nat → Option (List T2)
  | [], _, _ => none
  | t :: ts, 0, v => some (t.set_val v :: ts)
  | t :: ts, i + 1, v => (setValAt ts i v).map (t :: ·)

/-- `for _ in range(n): tiles[i].set_val(attrs); i += 1`. -/
def setValRange : List T2 → Nat → Nat → Nat → Option (List T2)
  | ts, _, 0, _ => some ts
  | ts, i, n + 1, v => (setValAt ts i v).bind (fun ts2 => setValRange ts2 (i + 1) n v)

/-- `tiles[i].idx = v`; `none` is `IndexError`. -/
def setIdxAt : List T2 → Nat → Nat → Option (List T2)
  | [], _, _ => none
  | t :: ts, 0, v => some ({ t with idx := v } :: ts)
  | t :: ts, i + 1, v => (setIdxAt ts i v).map (t :: ·)

/-- `for _ in range(n): tiles[i].idx = v; i += 1`. -/
def setIdxRange : List T2 → Nat → Nat → Nat → Option (List T2)
  | ts, _, 0, _ => some ts
  | ts, i, n + 1, v => (setIdxAt ts i v).bind (fun ts2 => setIdxRange ts2 (i + 1) n v)

/-- `for _ in range(n): incr += 1; tiles[i].idx = incr; i += 1`; returns the
updated tiles and the final `incr`. -/
def setIdxIncr : List T2 → Nat → Nat → Nat → Option (List T2 × Nat)
  | ts, _, 0, incr => some (ts, incr)
  | ts, i, n + 1, incr =>
    (setIdxAt ts i (incr + 1)).bind (fun ts2 => setIdxIncr ts2 (i + 1) n (incr + 1))

/-- The `while True` loop of `_decode_tile_attributes`; every iteration
consumes at least one input byte, so `data.length + 1` fuel suffices. -/
def decAttrsGo : Nat → List Nat → Nat → List T2 → Nat → Option (List T2 × Nat)
  | 0, _, _, _, _ => none
  | fuel + 1, data, idx, ts, i =>
    match data.get? idx with
    | none => none
    | some b0 =>
      let attrs := (b0 &&& 0xF8) <<< 8
      let len0 := b0 &&& 0x03
      if b0 &&& 0x04 = 0 then
        match data.get? (idx + 1) with
        | none => none
        | some b1 =>
          let len1 := (len0 <<< 8) ||| b1
          if len1 = 0 then some (ts, idx + 2)
          else
            (setValRange ts i (len1 + 1) attrs).bind
              (fun ts2 => decAttrsGo fuel data (idx + 2) ts2 (i + (len1 + 1)))
      else
        (setValRange ts i (len0 + 1) attrs).bind
          (fun ts2 => decAttrsGo fuel data (idx + 1) ts2 (i + (len0 + 1)))

/-- `_decode_tile_attributes(data, idx)`. -/
def decodeTileAttrs (data : List Nat) (idx : Nat) (ts : List T2) :
    Option (List T2 × Nat) :=
  decAttrsGo (data.length + 1) data idx ts 0

/-- Big-endian `struct.unpack(">H", data[i:i+2])`. -/
def readU16 (data : List Nat) (i : Nat) : Option Nat :=
  match data.get? i, data.get? (i + 1) with
  | some hi, some lo => some ((hi <<< 8) ||| lo)
  | _, _ => none

/-- The `while not done` state machine of `_decode_tile_indices`; on the
terminating `COPY_TILE` of `0x7FF` it reports the position one past the
marker.  `last`/`incr` are `none` until seeded (a run that consults them
before any `RLE_TILE_RUN` would store Python `None` into a tile index, which
this model treats as a decode failure). -/
def decIdxGo : Nat → List Nat → Nat → List T2 → Nat → Option Nat → Option Nat →
    Option (List T2 × Nat)
  | 0, _, _, _, _, _, _ => none
  | fuel + 1, data, di, ts, ti, last, incr =>
    match data.get? di with
    | none => none
    | some b0 =>
      let mode := b0 &&& 0xC0
      if mode = 0x00 then
        match readU16 data di with
        | none => none
        | some u =>
          let val := u &&& 0x7FF
          if val = 0x7FF then some (ts, di + 2)
          else
            (setIdxAt ts ti val).bind
              (fun ts2 => decIdxGo fuel data (di + 2) ts2 (ti + 1) last incr)
      else if mode = 0x40 then
        match readU16 data di with
        | none => none
        | some u =>
          let count := (b0 >>> 3) &&& 7
          let val := u &&& 0x7FF
          (setIdxRange ts ti (count + 1) val).bind
            (fun ts2 => decIdxGo fuel data (di + 2) ts2 (ti + (count + 1))
              (some val) (if incr = none then some val else incr))
      else if mode = 0x80 then
        match last with
        | none => none
        | some l =>
          let count := b0 &&& 0x3F
          (setIdxRange ts ti (count + 1) l).bind
            (fun ts2 => decIdxGo fuel data (di + 1) ts2 (ti + (count + 1)) last incr)
      else
        match incr with
        | none => none
        | some ic =>
          let count := b0 &&& 0x3F
          (setIdxIncr ts ti (count + 1) ic).bind
            (fun p => decIdxGo fuel data (di + 1) p.1 (ti + (count + 1)) last (some p.2))

/-- `_decode_tile_indices(data, data_idx)`: runs the state machine but, like
the source, returns the `data_idx` it was CALLED with (`return data_idx`),
not the updated position the machine reached. -/
def decodeTileIndices (data : List Nat) (di : Nat) (ts : List T2) :
    Option (List T2 × Nat) :=
  (decIdxGo (data.length + 1) data di ts 0 none none).map (fun p => (p.1, di))

/-- `decompress(data)`: header, attribute section, tile-index section;
returns `(width, height, tiles, returned_index)`. -/
def decompress (data : List Nat) : Option (Nat × Nat × List T2 × Nat) :=
  match data.get? 0, data.get? 1 with
  | some w, some h =>
    let ts0 := List.replicate (w * h) freshT2
    (decodeTileAttrs data 2 ts0).bind (fun pa =>
      (decodeTileIndices data pa.2 pa.1).bind (fun pi =>
        some (w, h, pi.1, pi.2)))
  | _, _ => none

/-- The attribute-scan `while` loop of `_encode_tile_attributes`: extends
`count` while the next tile has the same high attribute bits, the run stays
in bounds and `count < 0x400`. -/
def encAttrScan : Nat → List T2 → Nat → Nat → Nat → Nat
  | 0, _, _, _, count => count
  | f + 1, tiles, idx, prev, count =>
    if idx + count + 1 < tiles.length ∧ count < 0x400 then
      match tiles.get? (idx + count + 1) with
      | none => count
      | some t =>
        if (t.get_val &&& 0xF800) >>> 8 = prev then
          encAttrScan f tiles idx prev (count + 1)
        else count
    else count

/-- The outer loop of `_encode_tile_attributes` plus the `00 00`
terminator. -/
def encAttrsGo : Nat → List T2 → Nat → List Nat → Option (List Nat)
  | 0, _, _, _ => none
  | f + 1, tiles, idx, acc =>
    if idx < tiles.length then
      match tiles.get? idx with
      | none => none
      | some t =>
        let prev := (t.get_val &&& 0xF800) >>> 8
        let count := encAttrScan (tiles.length + 1) tiles idx prev 0
        let rec2 :=
          if count > 4 then [prev ||| (count >>> 8), count &&& 0xFF]
          else [prev ||| 4 ||| (count &&& 0x03)]
        encAttrsGo f tiles (idx + (count + 1)) (acc ++ rec2)
    else some (acc ++ [0x00, 0x00])

/-- `_encode_tile_attributes`. -/
def encodeTileAttrs (tiles : List T2) : Option (List Nat) :=
  encAttrsGo (tiles.length + 1) tiles 0 []

/-- The scan of `_handle_encode_rle_tile_run` (`count < 7`). -/
def encRleScan : Nat → List T2 → Nat → Nat → Nat → Nat
  | 0, _, _, _, count => count
  | f + 1, tiles, j, start, count =>
    if count < 7 ∧ j < tiles.length then
      match tiles.get? j with
      | none => count
      | some t =>
        if start = t.idx then encRleScan f tiles (j + 1) start (count + 1)
        else count
    else count

/-- The scan of `_handle_encode_rle_last_run` (`count <= 0x3F`, so the
resulting count can reach 0x40). -/
def encLastScan : Nat → List T2 → Nat → Nat → Nat → Nat
  | 0, _, _, _, count => count
  | f + 1, tiles, j, last, count =>
    if count ≤ 0x3F ∧ j < tiles.length then
      match tiles.get? j with
      | none => count
      | some t =>
        if t.idx = last then encLastScan f tiles (j + 1) last (count + 1)
        else count
    else count

/-- The scan of `_handle_encode_incr_run` (`count <= 0x3F`); returns the
count and the final `incr`. -/
def encIncrScan : Nat → List T2 → Nat → Nat → Nat → Nat × Nat
  | 0, _, _, incr, count => (count, incr)
  | f + 1, tiles, j, incr, count =>
    if count ≤ 0x3F ∧ j < tiles.length then
      match tiles.get? j with
      | none => (count, incr)
      | some t =>
        if t.idx ≠ incr + 1 then (count, incr)
        else encIncrScan f tiles (j + 1) (incr + 1) (count + 1)
    else (count, incr)

/-- The mode-dispatch loop of `_encode_tile_indices` after the forced first
`RLE_TILE_RUN`; each handler advances `tile_idx` by at least one. -/
def encIdxGo : Nat → List T2 → Nat → Nat → Nat → List Nat → Option (List Nat)
  | 0, _, _, _, _, _ => none
  | f + 1, tiles, ti, last, incr, acc =>
    if ti < tiles.length then
      match tiles.get? ti with
      | none => none
      | some t =>
        let start := t.idx
        if start = last then
          let count := encLastScan (tiles.length + 1) tiles (ti + 1) last 0
          encIdxGo f tiles (ti + (count + 1)) last incr (acc ++ [0x80 ||| count])
        else if start = incr + 1 then
          let p := encIncrScan (tiles.length + 1) tiles (ti + 1) (incr + 1) 0
          encIdxGo f tiles (ti + (p.1 + 1)) last p.2 (acc ++ [0xC0 ||| p.1])
        else
          match tiles.get? (ti + 1) with
          | some t2 =>
            if start = t2.idx then
              let count := encRleScan (tiles.length + 1) tiles (ti + 1) start 0
              encIdxGo f tiles (ti + (count + 1)) start incr
                (acc ++ [0x40 ||| ((count &&& 7) <<< 3) ||| ((start >>> 8) &&& 7),
                         start &&& 0xFF])
            else
              encIdxGo f tiles (ti + 1) last incr
                (acc ++ [(start >>> 8) &&& 0xFF, start &&& 0xFF])
          | none =>
            encIdxGo f tiles (ti + 1) last incr
              (acc ++ [(start >>> 8) &&& 0xFF, start &&& 0xFF])
    else some (acc ++ [0x07, 0xFF])

/-- `_encode_tile_indices`: a first forced `RLE_TILE_RUN` seeds `last` and
`incr` (both start as `tiles[0].idx`), then the dispatch loop runs; the
`0x07 0xFF` end marker is appended.  Fails (`IndexError`) on an empty tile
list. -/
def encodeTileIndices (tiles : List T2) : Option (List Nat) :=
  match tiles.get? 0 with
  | none => none
  | some t0 =>
    let start := t0.idx
    let count := encRleScan (tiles.length + 1) tiles 1 start 0
    encIdxGo (tiles.length + 1) tiles (count + 1) start start
      [0x40 ||| ((count &&& 7) <<< 3) ||| ((start >>> 8) &&& 7), start &&& 0xFF]

/-- `compress()`: header, attribute section, tile-index section. -/
def compress (w h : Nat) (tiles : List T2) : Option (List Nat) :=
  if w < 256 ∧ h < 256 then
    (encodeTileAttrs tiles).bind (fun ab =>
      (encodeTileIndices tiles).bind (fun ib =>
        some ([w, h] ++ ab ++ ib)))
  else none

end Tilemap2D


/-!
### Claim theorems for the Tilemap2D codec
-/

/-- C1: the model round trip fails inside the declared bounds.  For the
73x1 tilemap whose 73 tiles all have index 5 and no attributes, the encoder's
`RLE_LAST_RUN` scan allows `count` to reach 0x40 (its guard is
`count <= 0x3F` checked before incrementing), so it emits the byte
`0x80 | 0x40 = 0xC0`, which the decoder reads as an `RLE_INCREMENT_RUN` of
length 1: decoding the compressed bytes yields eight tiles of 5, one tile of
6 and sixty-four tiles of 0 instead of seventy-three tiles of 5. -/
theorem tilemap2d_roundtrip_fails :
    Tilemap2D.compress 73 1
        (List.replicate 73 (⟨5, false, false, false⟩ : Tilemap2D.T2))
      = some [73, 1, 0x00, 0x48, 0x00, 0x00, 0x78, 0x05, 0xC0, 0x07, 0xFF] ∧
    ((Tilemap2D.compress 73 1
        (List.replicate 73 (⟨5, false, false, false⟩ : Tilemap2D.T2))).bind
          (fun bs => Tilemap2D.decompress bs)).map (fun p => p.2.2.1)
      ≠ some (List.replicate 73 (⟨5, false, false, false⟩ : Tilemap2D.T2)) := by
  constructor
  · decide
  · decide

/-- C5: `decompress` does not return the number of bytes consumed.  On the
2x2 uniform seed input `02 02 07 00 00 58 05 07 FF`, the tile-index state
machine consumes through the terminating `0x07 0xFF` marker at index 9, but
`_decode_tile_indices` ends with `return data_idx` — its start argument —
so `decompress` returns 5, the index of the start of the tile-index
section. -/
theorem tilemap2d_decompress_returns_attr_end :
    Tilemap2D.decompress [0x02, 0x02, 0x07, 0x00, 0x00, 0x58, 0x05, 0x07, 0xFF]
        = some (2, 2,
            [⟨5, false, false, false⟩, ⟨5, false, false, false⟩,
             ⟨5, false, false, false⟩, ⟨5, false, false, false⟩], 5) ∧
    (Tilemap2D.decIdxGo 10 [0x02, 0x02, 0x07, 0x00, 0x00, 0x58, 0x05, 0x07, 0xFF]
        5 (List.replicate 4 Tilemap2D.freshT2) 0 none none).map (fun p => p.2)
        = some 9 ∧
    (5 : Nat) ≠ 9 := by
  refine ⟨by decide, by decide, by decide⟩


/-!
## LZ77 codec (`src/lz77.py`)
-/

namespace LZ77

/-- The inner `while` comparison loop of `find_best_match`: extends `length`
while bytes at `length + i - 1` and `start + length` agree, breaking once
`length` reaches `MAX_LEN`.  All indices touched are in range under the
callers' guards, so the byte fetch uses a default that is never consulted. -/
def matchLenGo : Nat → List Nat → Nat → Nat → Nat → Nat → Nat
  | 0, _, _, _, _, length => length
  | f + 1, inbuf, i, start, maxLen, length =>
    if inbuf.getD (length + i - 1) 0 = inbuf.getD (start + length) 0 then
      if length + 1 = maxLen then length + 1
      else matchLenGo f inbuf i start maxLen (length + 1)
    else length

/-- The candidate loop `for i in range(start, END_SEARCH, -1)`: the next
candidate position is `endSearch + n` as `n` counts down, i.e. `i` descends
from `start` to `endSearch + 1`.  Ties keep the first (largest-`i`, hence
smallest-offset) match; a full-length match stops the search. -/
def fbmGo : Nat → List Nat → Nat → Nat → Nat → Nat → Nat → Nat × Nat
  | 0, _, _, _, _, best, off => (best, off)
  | n + 1, inbuf, start, endSearch, maxLen, best, off =>
    let i := endSearch + n + 1
    let len := matchLenGo (maxLen + 1) inbuf i start maxLen 0
    if len > best then
      if len = maxLen then (len, start - i + 1)
      else fbmGo n inbuf start endSearch maxLen len (start - i + 1)
    else fbmGo n inbuf start endSearch maxLen best off

/-- `find_best_match(inbuf, start)`: when fewer than `MIN_LEN_LIMIT = 3`
bytes remain it executes `return 1`, a bare `int` instead of the documented
`(length, offset)` pair — modelled as the left injection, which the caller
cannot unpack. -/
def find_best_match (inbuf : List Nat) (start : Nat) : Sum Nat (Nat × Nat) :=
  let endSearch := if start > 4095 then start - 4095 else 0
  let maxLen := min (min 18 18) (inbuf.length - start)
  if maxLen < 3 then Sum.inl 1
  else Sum.inr (fbmGo (start - endSearch) inbuf start endSearch maxLen 0 0)

/-- One entry of the encoder's intermediate `entries` list. -/
inductive LZEntry where
  | byte : Nat → LZEntry
  | run : Nat → Nat → LZEntry
  | fin : LZEntry
deriving DecidableEq, Repr

/-- The main `while i < len(inbuf)` loop of `LZ77_encode`, building the
entries list.  Unpacking the bare `1` that `find_best_match` returns for a
tail shorter than 3 bytes raises `TypeError` (modelled as `none`), both at
the current position and inside the lazy-match probe at `i + 1`; the two
`assert` statements are modelled as checks. -/
def encodeEntries : Nat → List Nat → Nat → Option (List LZEntry)
  | 0, _, _ => none
  | f + 1, inbuf, i =>
    if i < inbuf.length then
      match find_best_match inbuf i with
      | .inl _ => none
      | .inr (mlen, moff) =>
        if mlen ≥ 3 then
          match find_best_match inbuf (i + 1) with
          | .inl _ => none
          | .inr (tlen, toff) =>
            if tlen > mlen then
              if 3 ≤ tlen ∧ tlen ≤ 18 ∧ toff ≤ 4095 then
                (encodeEntries f inbuf (i + 1 + tlen)).map
                  (fun rest => .byte (inbuf.getD i 0) :: .run tlen toff :: rest)
              else none
            else
              if 3 ≤ mlen ∧ mlen ≤ 18 ∧ moff ≤ 4095 then
                (encodeEntries f inbuf (i + mlen)).map
                  (fun rest => .run mlen moff :: rest)
              else none
        else
          (encodeEntries f inbuf (i + 1)).map
            (fun rest => .byte (inbuf.getD i 0) :: rest)
    else some [.fin]

/-- The command bits, one per entry: `1` for a literal, `0` otherwise. -/
def cmdBits (es : List LZEntry) : List Bool :=
  es.map (fun e => match e with | .byte _ => true | _ => false)

/-- The output loop of `LZ77_encode`: every 8th entry first flushes the next
command byte; a literal contributes its byte, a run two packed bytes, and
the end marker contributes `00 00` and stops. -/
def serializeEntries : List LZEntry → List Nat → Nat → List Nat
  | [], _, _ => []
  | e :: rest, cmdbytes, i =>
    let pre := if i % 8 = 0 then [cmdbytes.getD (i / 8) 0] else []
    match e with
    | .byte b => pre ++ b :: serializeEntries rest cmdbytes (i + 1)
    | .run len off =>
      pre ++ (((off >>> 4) &&& 0xF0) ||| ((18 - len) &&& 0x0F)) :: (off &&& 0xFF)
        :: serializeEntries rest cmdbytes (i + 1)
    | .fin => pre ++ [0, 0]

/-- `LZ77_encode(inbuf)`; `none` models the uncaught `TypeError`. -/
def LZ77_encode (inbuf : List Nat) : Option (List Nat) :=
  (encodeEntries (inbuf.length + 1) inbuf 0).map
    (fun es => serializeEntries es (LandTool.bytesOfBits (cmdBits es)) 0)

/-- The decoder's back-reference copy `for i in range(length):
outbuf.append(outbuf[-offset])`, re-reading after each append so
overlapping copies replicate runs; an offset beyond the produced output is
an `IndexError`. -/
def copyRun : Nat → List Nat → Nat → Option (List Nat)
  | 0, out, _ => some out
  | n + 1, out, off =>
    if off ≤ out.length then
      match out.get? (out.length - off) with
      | none => none
      | some b => copyRun n (out ++ [b]) off
    else none

/-- The `while True` loop of `LZ77_decode` with the rolling command byte:
an empty barrel refills from the next input byte; bit `1` copies a literal;
bit `0` reads a two-byte reference, `offset = 0` terminating with the
output and the number of input bytes consumed. -/
def decodeGo : Nat → List Nat → Nat → List Bool → List Nat →
    Option (List Nat × Nat)
  | 0, _, _, _, _ => none
  | f + 1, inbuf, idx, cmd, out =>
    match cmd with
    | [] =>
      match inbuf.get? idx with
      | none => none
      | some cb => decodeGo f inbuf (idx + 1) (LandTool.uBits 8 cb) out
    | b :: cmdRest =>
      if b then
        match inbuf.get? idx with
        | none => none
        | some lit => decodeGo f inbuf (idx + 1) cmdRest (out ++ [lit])
      else
        match inbuf.get? idx, inbuf.get? (idx + 1) with
        | some b1, some b2 =>
          let off := ((b1 &&& 0xF0) <<< 4) ||| b2
          let len := 18 - (b1 &&& 0x0F)
          if off = 0 then some (out, idx + 2)
          else
            match copyRun len out off with
            | none => none
            | some out2 => decodeGo f inbuf (idx + 2) cmdRest out2
        | _, _ => none

/-- `LZ77_decode(inbuf)`: returns the decompressed bytes and the number of
input bytes read.  Every loop iteration advances `idx`, so `len + 2` fuel
can never run out. -/
def LZ77_decode (inbuf : List Nat) : Option (List Nat × Nat) :=
  decodeGo (2 * inbuf.length + 2) inbuf 0 [] []

end LZ77

/-- C3: the single-literal seed test crashes the encoder.  With one byte
remaining, `find_best_match` hits its `MAX_LEN < 3` branch and executes
`return 1` — a bare integer although its docstring and every caller expect a
`(length, offset)` pair — so `LZ77_encode(0x41)` dies unpacking it
(`TypeError`) instead of producing `80 41 00 00`; the decode half of the
claim does hold: `LZ77_decode` maps those four bytes back to `0x41`,
consuming all 4 bytes. -/
theorem lz77_single_literal_encode_crashes :
    LZ77.find_best_match [0x41] 0 = Sum.inl 1 ∧
    LZ77.LZ77_encode [0x41] = none ∧
    LZ77.LZ77_decode [0x80, 0x41, 0x00, 0x00] = some ([0x41], 4) := by
  refine ⟨by decide, by decide, by decide⟩


/-!
## Tilemap3D heightmap RLE (`src/tools/codecs/tilemap3d.py`)
-/

namespace Tilemap3D

/-- The loop of `_encode_heightmap`: a fresh `(0, height)` run is appended
when the buffer is empty or its last pattern differs; otherwise the last
run's count is bumped. -/
def ehGo : List Nat → List (Nat × Nat) → List (Nat × Nat)
  | [], buf => buf
  | h :: hs, buf =>
    match buf.getLast? with
    | none => ehGo hs (buf ++ [(0, h)])
    | some lastp =>
      if lastp.2 ≠ h then ehGo hs (buf ++ [(0, h)])
      else ehGo hs (buf.dropLast ++ [(lastp.1 + 1, h)])

/-- `_encode_heightmap()`. -/
def encode_heightmap (hm : List Nat) : List (Nat × Nat) :=
  ehGo hm []

/-- The count emission of `_serialise_heightmap`: `0xFF` bytes while the
remainder is at least `0xFF`, then the remainder.  Each iteration shrinks
the remainder, so `c + 1` fuel can never run out. -/
def serialCountGo : Nat → Nat → List Nat
  | 0, r => [r]
  | f + 1, r => if r ≥ 0xFF then 0xFF :: serialCountGo f (r - 0xFF) else [r]

def serialCount (c : Nat) : List Nat := serialCountGo (c + 1) c

/-- `_serialise_heightmap`: the two 8-bit dimensions, then for each run the
16-bit big-endian pattern and the chunked count; the 8- and 16-bit writes
error (`none`) on over-range values exactly as `bitstring` does. -/
def serialise_heightmap (w h : Nat) (runs : List (Nat × Nat)) :
    Option (List Nat) :=
  if w < 256 ∧ h < 256 ∧ runs.all (fun r => r.2 < 65536) then
    some ([w, h] ++ runs.flatMap (fun r => r.2 / 256 :: r.2 % 256 :: serialCount r.1))
  else none

/-- The count-reading loop of `_decode_heightmap`: accumulate bytes until
one below `0xFF` appears. -/
def readCountGo : Nat → List Nat → Nat → Option (Nat × List Nat)
  | 0, _, _ => none
  | f + 1, s, acc =>
    match s with
    | [] => none
    | b :: s2 => if b ≠ 0xFF then some (acc + b, s2) else readCountGo f s2 (acc + b)

/-- The `for _ in range(hm_size)` loop of `_decode_heightmap`: with an
exhausted run counter, read a 16-bit pattern and a fresh count (seeded 1);
each iteration emits one cell and decrements the counter. -/
def hmDecGo : Nat → List Nat → Nat → Nat → Option (List Nat × List Nat)
  | 0, s, _, _ => some ([], s)
  | n + 1, s, pat, count =>
    if count = 0 then
      match s with
      | hi :: lo :: s2 =>
        let pat2 := hi * 256 + lo
        match readCountGo (s2.length + 1) s2 1 with
        | none => none
        | some (c2, s3) =>
          (hmDecGo n s3 pat2 (c2 - 1)).map (fun p => (pat2 :: p.1, p.2))
      | _ => none
    else
      (hmDecGo n s pat (count - 1)).map (fun p => (pat :: p.1, p.2))

/-- `_decode_heightmap`: reads `hm_width` and `hm_height`, then
`hm_width * hm_height` cells; returns the dimensions, the heightmap and the
unread remainder of the stream. -/
def decode_heightmap (s : List Nat) : Option (Nat × Nat × List Nat × List Nat) :=
  match s with
  | w :: h :: s2 => (hmDecGo (w * h) s2 0 0).map (fun p => (w, h, p.1, p.2))
  | _ => none

/-- The cells represented by an RLE run list (`(count, pattern)` stands for
`count + 1` cells). -/
def expandRuns (runs : List (Nat × Nat)) : List Nat :=
  runs.flatMap (fun r => List.replicate (r.1 + 1) r.2)

theorem ehGo_expand : ∀ (hs : List Nat) (buf : List (Nat × Nat)),
    expandRuns (ehGo hs buf) = expandRuns buf ++ hs := by
  intro hs
  induction hs with
  | nil => intro buf; simp [ehGo]
  | cons h hs ih =>
    intro buf
    unfold ehGo
    cases hgl : buf.getLast? with
    | none =>
      have hbuf : buf = [] := List.getLast?_eq_none_iff.mp hgl
      subst hbuf
      rw [ih]
      simp [expandRuns]
    | some lastp =>
      dsimp only
      by_cases hne : lastp.2 ≠ h
      · rw [if_pos hne, ih]
        simp [expandRuns, List.flatMap_append]
      · rw [if_neg hne, ih]
        push_neg at hne
        have hbuf : buf.dropLast ++ [lastp] = buf := List.dropLast_append_getLast? lastp hgl
        conv_rhs => rw [← hbuf]
        simp only [expandRuns, List.flatMap_append]
        rw [show (lastp.1 + 1, h) = (lastp.1 + 1, lastp.2) from by rw [hne]]
        have hl : lastp = (lastp.1, lastp.2) := rfl
        conv_rhs => rw [hl]
        rw [← hne]
        simp [List.replicate_succ', List.append_assoc]

theorem ehGo_patterns (P : Nat → Prop) : ∀ (hs : List Nat) (buf : List (Nat × Nat)),
    (∀ r ∈ buf, P r.2) → (∀ v ∈ hs, P v) →
    ∀ r ∈ ehGo hs buf, P r.2 := by
  intro hs
  induction hs with
  | nil => intro buf hb _ r hr; exact hb r hr
  | cons h hs ih =>
    intro buf hb hv
    have hh : P h := hv h (List.mem_cons_self h hs)
    have hv2 : ∀ v ∈ hs, P v := fun v hvv => hv v (List.mem_cons_of_mem h hvv)
    unfold ehGo
    cases hgl : buf.getLast? with
    | none =>
      refine ih (buf ++ [(0, h)]) ?_ hv2
      intro r hr
      rcases List.mem_append.mp hr with hr1 | hr2
      · exact hb r hr1
      · simp at hr2; rw [hr2]; exact hh
    | some lastp =>
      dsimp only
      by_cases hne : lastp.2 ≠ h
      · rw [if_pos hne]
        refine ih (buf ++ [(0, h)]) ?_ hv2
        intro r hr
        rcases List.mem_append.mp hr with hr1 | hr2
        · exact hb r hr1
        · simp at hr2; rw [hr2]; exact hh
      · rw [if_neg hne]
        refine ih (buf.dropLast ++ [(lastp.1 + 1, h)]) ?_ hv2
        intro r hr
        rcases List.mem_append.mp hr with hr1 | hr2
        · exact hb r (List.dropLast_subset buf hr1)
        · simp at hr2; rw [hr2]; exact hh

theorem serialCountGo_succ (f r : Nat) :
    serialCountGo (f + 1) r
      = if r ≥ 0xFF then 0xFF :: serialCountGo f (r - 0xFF) else [r] := rfl

theorem readCountGo_cons (f b : Nat) (s : List Nat) (acc : Nat) :
    readCountGo (f + 1) (b :: s) acc
      = if b ≠ 0xFF then some (acc + b, s) else readCountGo f s (acc + b) := rfl

theorem readCount_serialCount : ∀ (r f1 f2 acc : Nat) (tail : List Nat),
    r < f1 → (serialCountGo f1 r).length ≤ f2 →
    readCountGo f2 (serialCountGo f1 r ++ tail) acc = some (acc + r, tail) := by
  intro r
  induction r using Nat.strong_induction_on with
  | _ r ih =>
    intro f1 f2 acc tail h1 h2
    obtain ⟨g1, hg1⟩ : ∃ g1, f1 = g1 + 1 := ⟨f1 - 1, by omega⟩
    subst hg1
    rw [serialCountGo_succ] at h2 ⊢
    by_cases hr : r ≥ 0xFF
    · rw [if_pos hr] at h2 ⊢
      obtain ⟨g2, hg2⟩ : ∃ g2, f2 = g2 + 1 := ⟨f2 - 1, by simp at h2; omega⟩
      subst hg2
      rw [List.cons_append, readCountGo_cons]
      rw [if_neg (by simp)]
      rw [ih (r - 0xFF) (by omega) g1 g2 (acc + 0xFF) tail (by omega) (by
        simp at h2
        omega)]
      rw [show acc + 0xFF + (r - 0xFF) = acc + r from by omega]
    · rw [if_neg hr] at h2 ⊢
      obtain ⟨g2, hg2⟩ : ∃ g2, f2 = g2 + 1 := ⟨f2 - 1, by simp at h2; omega⟩
      subst hg2
      rw [List.singleton_append, readCountGo_cons]
      rw [if_pos (by omega)]

theorem hmDecGo_pos (n : Nat) (s : List Nat) (pat count : Nat) (h : count ≠ 0) :
    hmDecGo (n + 1) s pat count
      = (hmDecGo n s pat (count - 1)).map (fun p => (pat :: p.1, p.2)) := by
  cases count with
  | zero => exact absurd rfl h
  | succ c => rfl

theorem hmDecGo_zero_cons (n hi lo : Nat) (s2 : List Nat) (pat : Nat) :
    hmDecGo (n + 1) (hi :: lo :: s2) pat 0
      = match readCountGo (s2.length + 1) s2 1 with
        | none => none
        | some (c2, s3) =>
          (hmDecGo n s3 (hi * 256 + lo) (c2 - 1)).map
            (fun q => ((hi * 256 + lo) :: q.1, q.2)) := rfl

theorem hmDecGo_emit : ∀ (c n : Nat) (s : List Nat) (pat : Nat),
    hmDecGo (c + n) s pat c
      = (hmDecGo n s pat 0).map (fun p => (List.replicate c pat ++ p.1, p.2)) := by
  intro c
  induction c with
  | zero =>
    intro n s pat
    simp only [Nat.zero_add, List.replicate_zero, List.nil_append]
    cases hmDecGo n s pat 0 with
    | none => rfl
    | some p => rfl
  | succ c ih =>
    intro n s pat
    rw [show c + 1 + n = (c + n) + 1 from by omega]
    rw [hmDecGo_pos (c + n) s pat (c + 1) (by omega)]
    rw [show c + 1 - 1 = c from by omega]
    rw [ih n s pat]
    cases hmDecGo n s pat 0 with
    | none => rfl
    | some p => simp [List.replicate_succ]

theorem hmDec_runs : ∀ (runs : List (Nat × Nat)) (rest : List Nat) (pat0 : Nat),
    (∀ r ∈ runs, r.2 < 65536) →
    hmDecGo (expandRuns runs).length
        (runs.flatMap (fun r => r.2 / 256 :: r.2 % 256 :: serialCount r.1) ++ rest)
        pat0 0
      = some (expandRuns runs, rest) := by
  intro runs
  induction runs with
  | nil => intro rest pat0 _; simp [expandRuns, hmDecGo]
  | cons r rs ih =>
    intro rest pat0 hv
    obtain ⟨c, p⟩ := r
    have hv2 : ∀ u ∈ rs, u.2 < 65536 := fun u hu => hv u (List.mem_cons_of_mem _ hu)
    have hlen : (expandRuns ((c, p) :: rs)).length
        = (c + (expandRuns rs).length) + 1 := by
      simp [expandRuns]
      omega
    rw [hlen]
    rw [show (((c, p) :: rs).flatMap
            (fun r => r.2 / 256 :: r.2 % 256 :: serialCount r.1)) ++ rest
          = p / 256 :: p % 256 :: (serialCountGo (c + 1) c ++
              (rs.flatMap (fun r => r.2 / 256 :: r.2 % 256 :: serialCount r.1) ++ rest))
        from by simp [serialCount, List.flatMap_cons, List.cons_append, List.append_assoc]]
    rw [hmDecGo_zero_cons]
    rw [readCount_serialCount c (c + 1) _ 1 _ (by omega) (by
      rw [List.length_append]
      omega)]
    dsimp only
    rw [show 1 + c - 1 = c from by omega]
    rw [hmDecGo_emit c (expandRuns rs).length _ (p / 256 * 256 + p % 256)]
    rw [ih rest (p / 256 * 256 + p % 256) hv2]
    rw [show p / 256 * 256 + p % 256 = p from by omega]
    simp [expandRuns, List.replicate_succ]

theorem decode_heightmap_cons (w h : Nat) (s2 : List Nat) :
    decode_heightmap (w :: h :: s2)
      = (hmDecGo (w * h) s2 0 0).map (fun p => (w, h, p.1, p.2)) := rfl

end Tilemap3D

/-- C7: the heightmap RLE round trip holds.  For every heightmap of length
`hm_width * hm_height` (dimensions up to 255) whose entries are 16-bit
values, serializing with `_encode_heightmap` and `_serialise_heightmap` and
decoding with `_decode_heightmap` recovers exactly the original dimensions
and heightmap, consuming exactly the serialized bytes: each run is written
as a 16-bit pattern followed by `0xFF` bytes and one terminator below
`0xFF`, the run length being their sum plus 1. -/
theorem tilemap3d_heightmap_roundtrip (w h : Nat) (hm : List Nat)
    (rest : List Nat) (hw : w < 256) (hh : h < 256)
    (hlen : hm.length = w * h) (hvals : ∀ v ∈ hm, v < 65536) :
    (Tilemap3D.serialise_heightmap w h (Tilemap3D.encode_heightmap hm)).bind
        (fun bytes => Tilemap3D.decode_heightmap (bytes ++ rest))
      = some (w, h, hm, rest) := by
  have hpat : ∀ r ∈ Tilemap3D.encode_heightmap hm, r.2 < 65536 :=
    Tilemap3D.ehGo_patterns (fun v => v < 65536) hm [] (by simp) hvals
  have hexp : Tilemap3D.expandRuns (Tilemap3D.encode_heightmap hm) = hm := by
    have := Tilemap3D.ehGo_expand hm []
    simpa [Tilemap3D.encode_heightmap, Tilemap3D.expandRuns] using this
  unfold Tilemap3D.serialise_heightmap
  rw [if_pos ⟨hw, hh, by
    rw [List.all_eq_true]
    intro r hr
    exact decide_eq_true (hpat r hr)⟩]
  rw [Option.some_bind]
  rw [show ([w, h] ++ (Tilemap3D.encode_heightmap hm).flatMap
        (fun r => r.2 / 256 :: r.2 % 256 :: Tilemap3D.serialCount r.1)) ++ rest
      = w :: h :: ((Tilemap3D.encode_heightmap hm).flatMap
        (fun r => r.2 / 256 :: r.2 % 256 :: Tilemap3D.serialCount r.1) ++ rest) from by
    simp]
  rw [Tilemap3D.decode_heightmap_cons]
  have hn : w * h = (Tilemap3D.expandRuns (Tilemap3D.encode_heightmap hm)).length := by
    rw [hexp, hlen]
  rw [hn, Tilemap3D.hmDec_runs (Tilemap3D.encode_heightmap hm) rest 0 hpat]
  rw [hexp]
  rfl

/-- Witness for C7: a 2x2 heightmap with a three-cell run and one odd cell. -/
theorem tilemap3d_heightmap_roundtrip_witness :
    (Tilemap3D.serialise_heightmap 2 2 (Tilemap3D.encode_heightmap [7, 7, 7, 65535])).bind
        (fun bytes => Tilemap3D.decode_heightmap (bytes ++ [5]))
      = some (2, 2, [7, 7, 7, 65535], [5]) :=
  tilemap3d_heightmap_roundtrip 2 2 [7, 7, 7, 65535] [5] (by decide) (by decide)
    (by decide) (by decide)

/-!
## Huffman trees and strings (`src/tools/strings/huffman_trees.py`,
`src/scripts/common/strings/huffman_tree.py`)
-/

namespace Huffman

/-- A Huffman tree as built by `recalculate_tree` and `decode_tree`: leaves
carry one byte symbol, internal nodes carry only two children (the python
`Node` allows partial nodes, but every tree reachable through the public
paths is full). -/
inductive HTree where
  | leaf : Nat → HTree
  | node : HTree → HTree → HTree
deriving DecidableEq

/-- The `self.tree` accumulator of `encode_tree_preorder`: leaf symbols in
preorder. -/
def encChars : HTree → List Nat
  | .leaf c => [c]
  | .node l r => encChars l ++ encChars r

/-- The `self.bits` accumulator of `encode_tree_preorder`: `1` at a leaf,
`0` before descending left (the right child is emitted with no marker). -/
def encBits : HTree → List Bool
  | .leaf _ => [true]
  | .node l r => false :: (encBits l ++ encBits r)

/-- `HuffmanTree.encode_tree`: the preorder leaf list reversed, and the
topology bits packed into bytes (zero-padded to a byte boundary). -/
def encode_tree (t : HTree) : List Nat × List Nat :=
  ((encChars t).reverse, bytesOfBits (encBits t))

/-- One ancestor step of the current node in `decode_tree`'s parent-walk:
`goL` means the current node is the left child of a parent whose right
subtree is not built yet; `goR l` means it is the right child of a parent
whose finished left subtree is `l`. -/
inductive Frame where
  | goL : Frame
  | goR : HTree → Frame
deriving DecidableEq

/-- The climb after a leaf is placed in `decode_tree`: walk up through
parents whose right subtree is complete (`goR`), assembling nodes; stop at
the root (`.inl`, tree complete) or at the first parent still missing its
right child, and descend into that fresh right child (`.inr`). -/
def finishClimb : HTree → List Frame → Sum HTree (List Frame)
  | t, [] => .inl t
  | t, .goR l :: st => finishClimb (HTree.node l t) st
  | t, .goL :: st => .inr (.goR t :: st)

/-- The main loop of `HuffmanTree.decode_tree` over the topology bits and
the symbol bytes read downward from `offset - 1` (here pre-collected into
`chars`): a `0` bit creates a left child and descends, a `1` bit places a
leaf and climbs.  `none` models the stream or the symbol cursor running out
(python would raise a read error, or wrap the cursor to the end of the
buffer; neither is reachable from well-formed input).  Each step consumes
one bit, so fuel `bits.length + 1` never runs out. -/
def decTreeGo : Nat → List Frame → List Bool → List Nat →
    Option (HTree × List Bool × List Nat)
  | 0, _, _, _ => none
  | f + 1, st, bits, chars =>
    match bits with
    | [] => none
    | false :: bs => decTreeGo f (.goL :: st) bs chars
    | true :: bs =>
      match chars with
      | [] => none
      | c :: cs =>
        match finishClimb (.leaf c) st with
        | .inl t => some (t, bs, cs)
        | .inr st2 => decTreeGo f st2 bs cs

/-- `HuffmanTree.decode_tree` proper: topology bits start at byte `offset`
of the blob, symbols are read from byte `offset - 1` downward. -/
def decode_tree (blob : List Nat) (offset : Nat) : Option HTree :=
  (decTreeGo ((bitsOfBytes (blob.drop offset)).length + 1) []
      (bitsOfBytes (blob.drop offset)) ((blob.take offset).reverse)).map
    (fun p => p.1)

/-- The loop of `HuffmanTrees.encode_trees` over table slots `0..max`; a
missing tree stores the sentinel `0xFFFF`, a present tree appends its
reversed symbols, records the offset as two big-endian bytes (python's
`to_bytes(2, 'big')` raises on values 65536 and above, modeled as `none`),
then appends the packed topology. -/
def encode_trees_go : List (Option HTree) → List Nat → List Nat →
    Option (List Nat × List Nat)
  | [], offs, blob => some (offs, blob)
  | none :: ts, offs, blob => encode_trees_go ts (offs ++ [0xFF, 0xFF]) blob
  | some t :: ts, offs, blob =>
    let blob2 := blob ++ (encode_tree t).1
    if blob2.length < 65536 then
      encode_trees_go ts (offs ++ [blob2.length / 256, blob2.length % 256])
        (blob2 ++ (encode_tree t).2)
    else none

/-- `HuffmanTrees.encode_trees`, with the tree table in slot order (slot `i`
holds the tree for context byte `i`, `none` where the dict has no key). -/
def encode_trees (ts : List (Option HTree)) : Option (List Nat × List Nat) :=
  encode_trees_go ts [] []

/-- The loop of `HuffmanTrees.decode_trees`: two table bytes per slot, the
sentinel `0xFFFF` leaves the slot empty, anything else is decoded as an
offset into the blob; a trailing odd byte is ignored (`len // 2`). -/
def decode_trees_go : List Nat → List Nat → Option (List (Option HTree))
  | [], _ => some []
  | [_], _ => some []
  | hi :: lo :: rest, blob =>
    if hi * 256 + lo = 0xFFFF then
      (decode_trees_go rest blob).map (fun l => none :: l)
    else
      match decode_tree blob (hi * 256 + lo) with
      | none => none
      | some t => (decode_trees_go rest blob).map (fun l => some t :: l)

/-- `HuffmanTrees.decode_trees`. -/
def decode_trees (offs blob : List Nat) : Option (List (Option HTree)) :=
  decode_trees_go offs blob

/-- `update_table`: every leaf symbol with its root-to-leaf bit path. -/
def encPaths : HTree → List Bool → List (Nat × List Bool)
  | .leaf c, pre => [(c, pre)]
  | .node l r, pre => encPaths l (pre ++ [false]) ++ encPaths r (pre ++ [true])

/-- `HuffmanTree.encode_char` through the `self.encoding` dict built by
`update_encoding_table`; a duplicated leaf symbol keeps its last path
(later dict writes win), a missing symbol is a `KeyError` (`none`). -/
def encode_char (t : HTree) (c : Nat) : Option (List Bool) :=
  ((encPaths t []).reverse).lookup c

/-- `HuffmanTree.decode_char`: walk from the root by one bit per internal
node (`0` left, `1` right) until a leaf; `none` when the bits run out. -/
def decode_char : HTree → List Bool → Option (Nat × List Bool)
  | .leaf c, bs => some (c, bs)
  | .node _ _, [] => none
  | .node l r, b :: bs => if b then decode_char r bs else decode_char l bs

/-- The loop of `HuffmanTrees.compress_string`: encode each byte against
the tree for the previous byte (initially `eos`); a missing tree or missing
encoding entry raises (`none`). -/
def compressGo (trees : Nat → Option HTree) : List Nat → Nat → Option (List Bool)
  | [], _ => some []
  | c :: rest, last =>
    (trees last).bind (fun t =>
      (encode_char t c).bind (fun w =>
        (compressGo trees rest c).map (fun ws => w ++ ws)))

/-- `HuffmanTrees.compress_string`: after the loop, error unless the last
character (or `eos` for empty input) is the `eos` marker; on success the
bits are packed into bytes. -/
def compress_string (trees : Nat → Option HTree) (text : List Nat) (eos : Nat) :
    Option (List Nat) :=
  (compressGo trees text eos).bind (fun bs =>
    if text.getLast?.getD eos = eos then some (bytesOfBits bs) else none)

/-- The `while True` loop of `HuffmanTrees.decompress_string`: decode one
byte with the previous byte's tree, stop once `eos` is emitted.  An
iteration decoding through a leaf-rooted tree consumes no bits, and a chain
of more than 256 such iterations revisits a context and loops forever, so
`257 * (bits + 1)` fuel covers every terminating python run. -/
def decompressGo (trees : Nat → Option HTree) (eos : Nat) :
    Nat → List Bool → Nat → Option (List Nat)
  | 0, _, _ => none
  | f + 1, bits, last =>
    (trees last).bind (fun t =>
      (decode_char t bits).bind (fun p =>
        if p.1 = eos then some [p.1]
        else (decompressGo trees eos f p.2 p.1).map (fun rest => p.1 :: rest)))

/-- `HuffmanTrees.decompress_string`. -/
def decompress_string (trees : Nat → Option HTree) (comp : List Nat) (eos : Nat) :
    Option (List Nat) :=
  decompressGo trees eos (257 * ((bitsOfBytes comp).length + 1)) (bitsOfBytes comp) eos

/-- The blob contents contributed by a tree table: reversed symbols then
packed topology per present tree. -/
def segs : List (Option HTree) → List Nat
  | [] => []
  | none :: ts => segs ts
  | some t :: ts => (encode_tree t).1 ++ (encode_tree t).2 ++ segs ts

/-- The offset-table bytes produced for a tree table when the blob already
holds `acc` bytes. -/
def offsFrom : Nat → List (Option HTree) → List Nat
  | _, [] => []
  | acc, none :: ts => 0xFF :: 0xFF :: offsFrom acc ts
  | acc, some t :: ts =>
    let o := acc + (encChars t).length
    o / 256 :: o % 256 :: offsFrom (o + (bytesOfBits (encBits t)).length) ts

/-- What `decode_trees` reconstructs slot by slot: a tree whose recorded
offset collides with the `0xFFFF` sentinel comes back as an empty slot. -/
def decView : Nat → List (Option HTree) → List (Option HTree)
  | _, [] => []
  | acc, none :: ts => none :: decView acc ts
  | acc, some t :: ts =>
    let o := acc + (encChars t).length
    (if o = 0xFFFF then none else some t) ::
      decView (o + (bytesOfBits (encBits t)).length) ts

/-- Every recorded offset fits `to_bytes(2, 'big')`, so `encode_trees`
succeeds. -/
def encOK : List (Option HTree) → Nat → Bool
  | [], _ => true
  | none :: ts, acc => encOK ts acc
  | some t :: ts, acc =>
    let o := acc + (encChars t).length
    decide (o < 65536) && encOK ts (o + (bytesOfBits (encBits t)).length)

/-- Every recorded offset stays strictly below the `0xFFFF` sentinel. -/
def offsOK : List (Option HTree) → Nat → Bool
  | [], _ => true
  | none :: ts, acc => offsOK ts acc
  | some t :: ts, acc =>
    let o := acc + (encChars t).length
    decide (o < 0xFFFF) && offsOK ts (o + (bytesOfBits (encBits t)).length)

/-- A perfect binary tree of depth `d` with leaf symbols `b, b+1, ...`
(the Huffman tree of `2 ^ d` equally frequent symbols). -/
def perfect : Nat → Nat → HTree
  | 0, b => .leaf b
  | d + 1, b => .node (perfect d b) (perfect d (b + 2 ^ d))

/-- A full binary tree with 255 leaves `0..254` (the Huffman tree of a
suitable skewed frequency profile): perfect subtrees of sizes
`128, 64, ..., 2, 1` down the right spine. -/
def tree255 : HTree :=
  .node (perfect 7 0)
    (.node (perfect 6 128)
      (.node (perfect 5 192)
        (.node (perfect 4 224)
          (.node (perfect 3 240)
            (.node (perfect 2 248)
              (.node (perfect 1 252) (.leaf 254)))))))

theorem decompressGo_eof (trees : Nat → Option HTree) (eos : Nat) :
    ∀ (f : Nat) (bits : List Bool) (last : Nat) (out : List Nat),
    decompressGo trees eos f bits last = some out →
    out.getLast? = some eos ∧ out.count eos = 1 := by
  intro f
  induction f with
  | zero => intro bits last out h; simp [decompressGo] at h
  | succ f ih =>
    intro bits last out h
    simp only [decompressGo] at h
    obtain ⟨t, _, h2⟩ := Option.bind_eq_some.mp h
    obtain ⟨p, _, h3⟩ := Option.bind_eq_some.mp h2
    by_cases hc : p.1 = eos
    · rw [if_pos hc] at h3
      obtain rfl : [p.1] = out := Option.some.inj h3
      simp [hc]
    · rw [if_neg hc] at h3
      obtain ⟨rest, hrest, hout⟩ := Option.map_eq_some'.mp h3
      obtain ⟨hr1, hr2⟩ := ih p.2 p.1 rest hrest
      subst hout
      cases rest with
      | nil => simp at hr2
      | cons x xs =>
        refine ⟨by rw [List.getLast?_cons_cons]; exact hr1, ?_⟩
        rw [List.count_cons]
        simp [hc, hr2]

theorem uBits8_byteOfBits : ∀ (a b c d e f g h : Bool),
    uBits 8 (byteOfBits [a, b, c, d, e, f, g, h]) = [a, b, c, d, e, f, g, h] := by
  decide

theorem bitsOfBytes_cons (x : Nat) (l : List Nat) :
    bitsOfBytes (x :: l) = uBits 8 x ++ bitsOfBytes l := rfl

theorem bitsOfBytes_append (a b : List Nat) :
    bitsOfBytes (a ++ b) = bitsOfBytes a ++ bitsOfBytes b := by
  simp [bitsOfBytes]

theorem bitsOfBytes_bytesOfBits_bounded : ∀ (n : Nat) (bs : List Bool), bs.length ≤ n →
    bitsOfBytes (bytesOfBits bs)
      = bs ++ List.replicate ((8 - bs.length % 8) % 8) false := by
  intro n
  induction n using Nat.strong_induction_on with
  | _ n ih =>
    intro bs hlen
    match bs with
    | [] => simp [bytesOfBits, bitsOfBytes]
    | [b1] => simp [bytesOfBits, bitsOfBytes, uBits8_byteOfBits, List.replicate]
    | [b1, b2] => simp [bytesOfBits, bitsOfBytes, uBits8_byteOfBits, List.replicate]
    | [b1, b2, b3] => simp [bytesOfBits, bitsOfBytes, uBits8_byteOfBits, List.replicate]
    | [b1, b2, b3, b4] => simp [bytesOfBits, bitsOfBytes, uBits8_byteOfBits, List.replicate]
    | [b1, b2, b3, b4, b5] =>
      simp [bytesOfBits, bitsOfBytes, uBits8_byteOfBits, List.replicate]
    | [b1, b2, b3, b4, b5, b6] =>
      simp [bytesOfBits, bitsOfBytes, uBits8_byteOfBits, List.replicate]
    | [b1, b2, b3, b4, b5, b6, b7] =>
      simp [bytesOfBits, bitsOfBytes, uBits8_byteOfBits, List.replicate]
    | b1 :: b2 :: b3 :: b4 :: b5 :: b6 :: b7 :: b8 :: rest =>
      have hlt : rest.length < n := by simp [List.length_cons] at hlen; omega
      have ihr := ih rest.length hlt rest (Nat.le_refl _)
      rw [show bytesOfBits (b1 :: b2 :: b3 :: b4 :: b5 :: b6 :: b7 :: b8 :: rest)
            = byteOfBits [b1, b2, b3, b4, b5, b6, b7, b8] :: bytesOfBits rest from rfl]
      rw [bitsOfBytes_cons, ihr, uBits8_byteOfBits]
      have hp : (8 - (b1 :: b2 :: b3 :: b4 :: b5 :: b6 :: b7 :: b8 :: rest).length % 8) % 8
          = (8 - rest.length % 8) % 8 := by
        simp [List.length_cons]
        omega
      rw [hp]
      simp

theorem bitsOfBytes_bytesOfBits (bs : List Bool) :
    bitsOfBytes (bytesOfBits bs)
      = bs ++ List.replicate ((8 - bs.length % 8) % 8) false :=
  bitsOfBytes_bytesOfBits_bounded bs.length bs (Nat.le_refl _)

theorem decTreeGo_false (f : Nat) (st : List Frame) (bs : List Bool) (cs : List Nat) :
    decTreeGo (f + 1) st (false :: bs) cs = decTreeGo f (.goL :: st) bs cs := rfl

theorem decTreeGo_run : ∀ (t : HTree) (f : Nat) (st : List Frame) (bs : List Bool)
    (cs : List Nat),
    decTreeGo (f + (encBits t).length) st (encBits t ++ bs) (encChars t ++ cs)
      = match finishClimb t st with
        | .inl r => some (r, bs, cs)
        | .inr st2 => decTreeGo f st2 bs cs := by
  intro t
  induction t with
  | leaf c => intro f st bs cs; rfl
  | node l r ihl ihr =>
    intro f st bs cs
    rw [show encBits (.node l r) ++ bs = false :: (encBits l ++ (encBits r ++ bs)) from by
      simp [encBits]]
    rw [show encChars (.node l r) ++ cs = encChars l ++ (encChars r ++ cs) from by
      simp [encChars]]
    rw [show f + (encBits (.node l r)).length
          = (f + (encBits r).length + (encBits l).length) + 1 from by
      simp [encBits]
      omega]
    rw [decTreeGo_false]
    rw [ihl (f + (encBits r).length) (.goL :: st) (encBits r ++ bs) (encChars r ++ cs)]
    rw [show finishClimb l (.goL :: st) = Sum.inr (.goR l :: st) from rfl]
    dsimp only
    rw [ihr f (.goR l :: st) bs cs]
    rfl

theorem decode_tree_at (t : HTree) (pre post : List Nat) :
    decode_tree (pre ++ ((encChars t).reverse ++ (bytesOfBits (encBits t) ++ post)))
        (pre.length + (encChars t).length) = some t := by
  have hsplit : pre ++ ((encChars t).reverse ++ (bytesOfBits (encBits t) ++ post))
      = (pre ++ (encChars t).reverse) ++ (bytesOfBits (encBits t) ++ post) := by
    simp [List.append_assoc]
  have hlen : (pre ++ (encChars t).reverse).length = pre.length + (encChars t).length := by
    simp
  have hTake : (pre ++ ((encChars t).reverse ++ (bytesOfBits (encBits t) ++ post))).take
      (pre.length + (encChars t).length) = pre ++ (encChars t).reverse := by
    rw [hsplit]
    exact List.take_left' hlen
  have hDrop : (pre ++ ((encChars t).reverse ++ (bytesOfBits (encBits t) ++ post))).drop
      (pre.length + (encChars t).length) = bytesOfBits (encBits t) ++ post := by
    rw [hsplit]
    exact List.drop_left' hlen
  unfold decode_tree
  rw [hTake, hDrop]
  rw [show (pre ++ (encChars t).reverse).reverse = encChars t ++ pre.reverse from by simp]
  rw [bitsOfBytes_append, bitsOfBytes_bytesOfBits]
  rw [show (encBits t ++ List.replicate ((8 - (encBits t).length % 8) % 8) false)
        ++ bitsOfBytes post
      = encBits t ++ (List.replicate ((8 - (encBits t).length % 8) % 8) false
        ++ bitsOfBytes post) from by simp [List.append_assoc]]
  rw [show (encBits t ++ (List.replicate ((8 - (encBits t).length % 8) % 8) false
        ++ bitsOfBytes post)).length + 1
      = ((List.replicate ((8 - (encBits t).length % 8) % 8) false
          ++ bitsOfBytes post).length + 1) + (encBits t).length from by
    simp
    omega]
  rw [decTreeGo_run]
  rw [show finishClimb t [] = Sum.inl t from rfl]
  rfl

theorem encode_trees_go_eq : ∀ (ts : List (Option HTree)) (offs blob : List Nat),
    encOK ts blob.length = true →
    encode_trees_go ts offs blob
      = some (offs ++ offsFrom blob.length ts, blob ++ segs ts) := by
  intro ts
  induction ts with
  | nil => intro offs blob _; simp [encode_trees_go, offsFrom, segs]
  | cons x rest ih =>
    intro offs blob hok
    cases x with
    | none =>
      simp only [encode_trees_go]
      rw [ih (offs ++ [0xFF, 0xFF]) blob (by simpa [encOK] using hok)]
      simp [offsFrom, segs, List.append_assoc]
    | some t =>
      simp only [encOK, Bool.and_eq_true, decide_eq_true_eq] at hok
      obtain ⟨ho, hrest⟩ := hok
      simp only [encode_trees_go]
      rw [if_pos (by simp [encode_tree]; omega)]
      rw [ih _ ((blob ++ (encode_tree t).1) ++ (encode_tree t).2) (by
        simp only [List.length_append, encode_tree, List.length_reverse]
        exact hrest)]
      simp only [offsFrom, segs, encode_tree, List.length_append, List.length_reverse]
      simp [List.append_assoc]

theorem decode_trees_go_segs : ∀ (ts : List (Option HTree)) (pre post : List Nat),
    encOK ts pre.length = true →
    decode_trees_go (offsFrom pre.length ts) (pre ++ (segs ts ++ post))
      = some (decView pre.length ts) := by
  intro ts
  induction ts with
  | nil => intro pre post _; simp [offsFrom, decode_trees_go, decView]
  | cons x rest ih =>
    intro pre post hok
    cases x with
    | none =>
      simp only [offsFrom, decode_trees_go]
      rw [if_pos (by norm_num)]
      rw [show segs (none :: rest) = segs rest from rfl]
      rw [ih pre post (by simpa [encOK] using hok)]
      rfl
    | some t =>
      simp only [encOK, Bool.and_eq_true, decide_eq_true_eq] at hok
      obtain ⟨ho, hrest⟩ := hok
      simp only [offsFrom, decode_trees_go]
      rw [show (pre.length + (encChars t).length) / 256 * 256
            + (pre.length + (encChars t).length) % 256
          = pre.length + (encChars t).length from by omega]
      by_cases hsent : pre.length + (encChars t).length = 65535
      · rw [if_pos hsent]
        have hlen2 : (pre ++ ((encode_tree t).1 ++ (encode_tree t).2)).length
            = pre.length + (encChars t).length + (bytesOfBits (encBits t)).length := by
          simp [encode_tree]
          omega
        have hih := ih (pre ++ ((encode_tree t).1 ++ (encode_tree t).2)) post
          (by rw [hlen2]; exact hrest)
        rw [hlen2] at hih
        rw [show pre ++ (segs (some t :: rest) ++ post)
              = (pre ++ ((encode_tree t).1 ++ (encode_tree t).2)) ++ (segs rest ++ post)
            from by simp [segs, List.append_assoc]]
        rw [hih]
        rw [show decView pre.length (some t :: rest)
              = none :: decView (pre.length + (encChars t).length
                  + (bytesOfBits (encBits t)).length) rest from by
          simp [decView, hsent]]
        rfl
      · rw [if_neg hsent]
        rw [show pre ++ (segs (some t :: rest) ++ post)
              = pre ++ ((encChars t).reverse
                  ++ (bytesOfBits (encBits t) ++ (segs rest ++ post))) from by
          simp [segs, encode_tree, List.append_assoc]]
        rw [show decode_tree (pre ++ ((encChars t).reverse
              ++ (bytesOfBits (encBits t) ++ (segs rest ++ post))))
              (pre.length + (encChars t).length) = some t
            from decode_tree_at t pre (segs rest ++ post)]
        dsimp only
        have hlen2 : (pre ++ ((encChars t).reverse ++ bytesOfBits (encBits t))).length
            = pre.length + (encChars t).length + (bytesOfBits (encBits t)).length := by
          simp
          omega
        have hih := ih (pre ++ ((encChars t).reverse ++ bytesOfBits (encBits t))) post
          (by rw [hlen2]; exact hrest)
        rw [hlen2] at hih
        rw [show pre ++ ((encChars t).reverse
              ++ (bytesOfBits (encBits t) ++ (segs rest ++ post)))
              = (pre ++ ((encChars t).reverse ++ bytesOfBits (encBits t)))
                ++ (segs rest ++ post) from by simp [List.append_assoc]]
        rw [hih]
        rw [show decView pre.length (some t :: rest)
              = some t :: decView (pre.length + (encChars t).length
                  + (bytesOfBits (encBits t)).length) rest from by
          simp [decView, hsent]]
        rfl

theorem encOK_of_offsOK : ∀ (ts : List (Option HTree)) (acc : Nat),
    offsOK ts acc = true → encOK ts acc = true := by
  intro ts
  induction ts with
  | nil => intro acc _; rfl
  | cons x rest ih =>
    intro acc hok
    cases x with
    | none => exact ih acc (by simpa [offsOK] using hok)
    | some t =>
      simp only [offsOK, Bool.and_eq_true, decide_eq_true_eq] at hok
      simp only [encOK, Bool.and_eq_true, decide_eq_true_eq]
      exact ⟨by omega, ih _ hok.2⟩

theorem decView_eq_self : ∀ (ts : List (Option HTree)) (acc : Nat),
    offsOK ts acc = true → decView acc ts = ts := by
  intro ts
  induction ts with
  | nil => intro acc _; rfl
  | cons x rest ih =>
    intro acc hok
    cases x with
    | none =>
      simp only [decView]
      rw [ih acc (by simpa [offsOK] using hok)]
    | some t =>
      simp only [offsOK, Bool.and_eq_true, decide_eq_true_eq] at hok
      simp only [decView]
      rw [if_neg (by omega), ih _ hok.2]

set_option maxRecDepth 20000 in
theorem encOK_rep : ∀ (k acc : Nat), acc + 320 * k + 255 < 65536 →
    encOK (List.replicate k (some (perfect 8 0)) ++ [some (tree255)]) acc = true := by
  intro k
  induction k with
  | zero =>
    intro acc hb
    simp only [List.replicate_zero, List.nil_append, encOK, Bool.and_eq_true,
      decide_eq_true_eq]
    rw [show (encChars (tree255)).length = 255 from by decide]
    exact ⟨by omega, trivial⟩
  | succ k ih =>
    intro acc hb
    rw [List.replicate_succ, List.cons_append]
    simp only [encOK, Bool.and_eq_true, decide_eq_true_eq]
    rw [show (encChars (perfect 8 0)).length = 256 from by decide]
    rw [show (bytesOfBits (encBits (perfect 8 0))).length = 64 from by decide]
    refine ⟨by omega, ?_⟩
    rw [show acc + 256 + 64 = acc + 320 from by omega]
    exact ih (acc + 320) (by omega)

set_option maxRecDepth 20000 in
theorem decView_rep : ∀ (k acc : Nat), acc % 320 = 0 →
    decView acc (List.replicate k (some (perfect 8 0)) ++ [some (tree255)])
      = List.replicate k (some (perfect 8 0)) ++
          [if acc + 320 * k + 255 = 65535 then none else some (tree255)] := by
  intro k
  induction k with
  | zero =>
    intro acc _
    simp only [List.replicate_zero, List.nil_append, decView]
    rw [show (encChars (tree255)).length = 255 from by decide]
  | succ k ih =>
    intro acc hm
    rw [List.replicate_succ, List.cons_append]
    simp only [decView]
    rw [show (encChars (perfect 8 0)).length = 256 from by decide]
    rw [show (bytesOfBits (encBits (perfect 8 0))).length = 64 from by decide]
    rw [if_neg (by omega)]
    rw [show acc + 256 + 64 = acc + 320 from by omega]
    rw [ih (acc + 320) (by omega)]
    rw [show acc + 320 + 320 * k + 255 = acc + 320 * (k + 1) + 255 from by ring]
    rfl

end Huffman

/-- C8 counterexample: the original claim fails when a tree's recorded byte
offset is exactly `0xFFFF`.  A bundle of 204 contexts with 256-leaf trees
(320 blob bytes each) and one context with a 255-leaf tree puts the last
tree's offset at `204 * 320 + 255 = 0xFFFF`; `encode_trees` succeeds and
stores the two bytes `FF FF`, but `decode_trees` reads that entry as the
"no tree" sentinel and drops the context, so the decoded bundle does not
have the same context keys as the original. -/
theorem huffman_trees_offset_collision :
    (Huffman.encode_trees (List.replicate 204 (some (Huffman.perfect 8 0))
        ++ [some (Huffman.tree255)])).bind
        (fun p => Huffman.decode_trees p.1 p.2)
      = some (List.replicate 204 (some (Huffman.perfect 8 0)) ++ [none]) ∧
    List.replicate 204 (some (Huffman.perfect 8 0)) ++ [none]
      ≠ List.replicate 204 (some (Huffman.perfect 8 0))
          ++ [some (Huffman.tree255)] := by
  have hE : Huffman.encOK (List.replicate 204 (some (Huffman.perfect 8 0))
      ++ [some (Huffman.tree255)]) 0 = true :=
    Huffman.encOK_rep 204 0 (by norm_num)
  have h1 : Huffman.encode_trees (List.replicate 204 (some (Huffman.perfect 8 0))
      ++ [some (Huffman.tree255)])
      = some (Huffman.offsFrom 0 (List.replicate 204 (some (Huffman.perfect 8 0))
          ++ [some (Huffman.tree255)]),
        Huffman.segs (List.replicate 204 (some (Huffman.perfect 8 0))
          ++ [some (Huffman.tree255)])) := by
    unfold Huffman.encode_trees
    have h := Huffman.encode_trees_go_eq (List.replicate 204 (some (Huffman.perfect 8 0))
        ++ [some (Huffman.tree255)]) [] [] hE
    rw [List.nil_append, List.nil_append, List.length_nil] at h
    exact h
  have h2 : Huffman.decode_trees
      (Huffman.offsFrom 0 (List.replicate 204 (some (Huffman.perfect 8 0))
        ++ [some (Huffman.tree255)]))
      (Huffman.segs (List.replicate 204 (some (Huffman.perfect 8 0))
        ++ [some (Huffman.tree255)]))
      = some (Huffman.decView 0 (List.replicate 204 (some (Huffman.perfect 8 0))
          ++ [some (Huffman.tree255)])) := by
    have h := Huffman.decode_trees_go_segs (List.replicate 204 (some (Huffman.perfect 8 0))
        ++ [some (Huffman.tree255)]) [] [] hE
    rw [List.append_nil, List.nil_append, List.length_nil] at h
    exact h
  have h3 : Huffman.decView 0 (List.replicate 204 (some (Huffman.perfect 8 0))
      ++ [some (Huffman.tree255)])
      = List.replicate 204 (some (Huffman.perfect 8 0)) ++ [none] := by
    rw [Huffman.decView_rep 204 0 rfl]
    norm_num
  constructor
  · calc (Huffman.encode_trees (List.replicate 204 (some (Huffman.perfect 8 0))
          ++ [some (Huffman.tree255)])).bind (fun p => Huffman.decode_trees p.1 p.2)
        = (some (Huffman.offsFrom 0 (List.replicate 204 (some (Huffman.perfect 8 0))
              ++ [some (Huffman.tree255)]),
            Huffman.segs (List.replicate 204 (some (Huffman.perfect 8 0))
              ++ [some (Huffman.tree255)]))).bind
            (fun p => Huffman.decode_trees p.1 p.2) := by rw [h1]
      _ = Huffman.decode_trees
            (Huffman.offsFrom 0 (List.replicate 204 (some (Huffman.perfect 8 0))
              ++ [some (Huffman.tree255)]))
            (Huffman.segs (List.replicate 204 (some (Huffman.perfect 8 0))
              ++ [some (Huffman.tree255)])) := by
          rw [Option.some_bind]
      _ = some (Huffman.decView 0 (List.replicate 204 (some (Huffman.perfect 8 0))
            ++ [some (Huffman.tree255)])) := h2
      _ = some (List.replicate 204 (some (Huffman.perfect 8 0)) ++ [none]) := by rw [h3]
  · intro h
    have := List.append_inj_right h rfl
    simp at this

/-- C8 (amended): Huffman tree serialization round trip.  For every tree
table whose recorded offsets all stay below the `0xFFFF` sentinel,
`decode_trees` applied to the `(char_offsets, encoded_trees)` pair produced
by `encode_trees` reconstructs exactly the original table: the same context
slots are populated and each holds an identical tree (hence assigns every
symbol the same bit path).  Each table entry is either `0xFFFF` (no tree)
or the byte offset of the tree's preorder bit topology, with the leaf
symbols in reverse preorder immediately below the offset. -/
theorem huffman_trees_roundtrip (ts : List (Option Huffman.HTree))
    (hok : Huffman.offsOK ts 0 = true) :
    (Huffman.encode_trees ts).bind (fun p => Huffman.decode_trees p.1 p.2)
      = some ts := by
  have hE : Huffman.encOK ts 0 = true := Huffman.encOK_of_offsOK ts 0 hok
  unfold Huffman.encode_trees
  rw [Huffman.encode_trees_go_eq ts [] [] hE]
  rw [Option.some_bind]
  unfold Huffman.decode_trees
  have hd := Huffman.decode_trees_go_segs ts [] [] hE
  simp only [List.nil_append, List.append_nil, List.length_nil] at hd ⊢
  rw [hd]
  rw [Huffman.decView_eq_self ts 0 hok]

/-- Witness for C8: a three-slot table (two trees and a gap) round trips. -/
theorem huffman_trees_roundtrip_witness :
    Huffman.offsOK [some (.node (.leaf 5) (.leaf 9)), none, some (.leaf 3)] 0 = true ∧
    (Huffman.encode_trees [some (.node (.leaf 5) (.leaf 9)), none, some (.leaf 3)]).bind
        (fun p => Huffman.decode_trees p.1 p.2)
      = some [some (.node (.leaf 5) (.leaf 9)), none, some (.leaf 3)] :=
  ⟨by decide, huffman_trees_roundtrip _ (by decide)⟩

/-- C9: Huffman string boundary.  Whenever `decompress_string` returns
successfully its output contains the `eos` marker exactly once, as the
final byte (the loop stops at the first emitted `eos`); and
`compress_string` errors on every non-empty input whose final byte is not
the `eos` marker (the post-loop check `last_char != eos_marker`). -/
theorem huffman_string_boundary (trees : Nat → Option Huffman.HTree)
    (comp out text : List Nat) (eos l : Nat)
    (hdec : Huffman.decompress_string trees comp eos = some out)
    (hlast : text.getLast? = some l) (hne : l ≠ eos) :
    (out.getLast? = some eos ∧ out.count eos = 1) ∧
      Huffman.compress_string trees text eos = none := by
  refine ⟨Huffman.decompressGo_eof trees eos _ _ _ out hdec, ?_⟩
  unfold Huffman.compress_string
  cases Huffman.compressGo trees text eos with
  | none => rfl
  | some bs =>
    rw [Option.some_bind, hlast]
    simp [Option.getD, hne]

/-- Witness for C9: a one-node tree bundle where a single `0` bit decodes
to the marker, and compressing a string not ending in the marker fails. -/
theorem huffman_string_boundary_witness :
    Huffman.decompress_string
        (fun n => if n = 0 then some (.node (.leaf 0) (.leaf 1)) else none) [0] 0
      = some [0] ∧
    ([5] : List Nat).getLast? = some 5 ∧
    ((([0] : List Nat).getLast? = some 0 ∧ ([0] : List Nat).count 0 = 1) ∧
      Huffman.compress_string
          (fun n => if n = 0 then some (.node (.leaf 0) (.leaf 1)) else none) [5] 0
        = none) :=
  ⟨by decide, by decide,
    huffman_string_boundary
      (fun n => if n = 0 then some (.node (.leaf 0) (.leaf 1)) else none)
      [0] [0] [5] 0 5 (by decide) (by decide) (by decide)⟩

end LandTool
